import Mathlib

/-!
# Verification of the trace ingestion-and-aggregation pipeline

Shallow embedding of the TypeScript trace-analysis core:
event reconstruction (`processEvents`), file aggregation (`aggregateByFile`),
location aggregation (`extractLocationsFromFile`), top-K selection
(`getTopN`), percentile computation (`quickselect`,
`calculatePercentilesFromNumbers`) and the streaming parser's progress
reporting (`reportedPercentages`).

JavaScript numbers are modelled by `ℚ` (exact arithmetic), JS arrays by
`List`, `Map` by insertion-ordered association lists or update functions,
and `undefined` by `Option`.  `Array.prototype.sort`, being stable, is
modelled by a stable insertion sort with the same comparator.
-/

namespace TsPerf

/-! ## Stable sorting

`Array.prototype.sort(cmp)` is required to be stable, so its result is
uniquely determined by the comparator; we model the two comparators used
by the code (`(a, b) => f(a) - f(b)` and `(a, b) => f(b) - f(a)`) by
stable insertion sorts. -/

/-- Stable ascending insertion: `x` is placed before the first element whose
key is not smaller, i.e. before elements with equal keys (which originally
came after `x`). -/
def insertAsc (f : α → ℚ) (x : α) : List α → List α
  | [] => [x]
  | a :: as => if f a < f x then a :: insertAsc f x as else x :: a :: as

/-- Stable sort ascending by key `f`; models `arr.sort((a, b) => f(a) - f(b))`. -/
def sortAsc (f : α → ℚ) : List α → List α
  | [] => []
  | a :: as => insertAsc f a (sortAsc f as)

/-- Stable descending insertion: `x` is placed before the first element whose
key is not larger. -/
def insertDesc (f : α → ℚ) (x : α) : List α → List α
  | [] => [x]
  | a :: as => if f x < f a then a :: insertDesc f x as else x :: a :: as

/-- Stable sort descending by key `f`; models `arr.sort((a, b) => f(b) - f(a))`. -/
def sortDesc (f : α → ℚ) : List α → List α
  | [] => []
  | a :: as => insertDesc f a (sortDesc f as)

theorem insertAsc_perm (f : α → ℚ) (x : α) (l : List α) :
    List.Perm (insertAsc f x l) (x :: l) := by
  induction l with
  | nil => simp [insertAsc]
  | cons a as ih =>
    simp only [insertAsc]
    split
    · exact (ih.cons a).trans (List.Perm.swap x a as)
    · exact List.Perm.refl _

theorem sortAsc_perm (f : α → ℚ) (l : List α) : List.Perm (sortAsc f l) l := by
  induction l with
  | nil => exact List.Perm.refl _
  | cons a as ih =>
    exact (insertAsc_perm f a (sortAsc f as)).trans (ih.cons a)

theorem insertAsc_sorted (f : α → ℚ) (x : α) (l : List α)
    (h : l.Pairwise (fun a b => f a ≤ f b)) :
    (insertAsc f x l).Pairwise (fun a b => f a ≤ f b) := by
  induction l with
  | nil => simp [insertAsc]
  | cons a as ih =>
    rcases List.pairwise_cons.mp h with ⟨ha, has⟩
    simp only [insertAsc]
    split
    · rename_i hlt
      refine List.pairwise_cons.mpr ⟨?_, ih has⟩
      intro b hb
      rcases List.mem_cons.mp ((insertAsc_perm f x as).mem_iff.mp hb) with rfl | hbas
      · exact le_of_lt hlt
      · exact ha b hbas
    · rename_i hnlt
      refine List.pairwise_cons.mpr ⟨?_, h⟩
      intro b hb
      rcases List.mem_cons.mp hb with rfl | hbas
      · exact le_of_not_lt hnlt
      · exact le_trans (le_of_not_lt hnlt) (ha b hbas)

theorem sortAsc_sorted (f : α → ℚ) (l : List α) :
    (sortAsc f l).Pairwise (fun a b => f a ≤ f b) := by
  induction l with
  | nil => simp [sortAsc]
  | cons a as ih => exact insertAsc_sorted f a _ ih

/-- Sorting an already (weakly) sorted list is the identity. -/
theorem sortAsc_eq_self (f : α → ℚ) (l : List α)
    (h : l.Pairwise (fun a b => f a ≤ f b)) : sortAsc f l = l := by
  induction l with
  | nil => rfl
  | cons a as ih =>
    rcases List.pairwise_cons.mp h with ⟨ha, has⟩
    have htail : sortAsc f as = as := ih has
    simp only [sortAsc, htail]
    cases as with
    | nil => rfl
    | cons b bs =>
      have : ¬ f b < f a := not_lt_of_le (ha b (List.mem_cons_self b bs))
      simp [insertAsc, this]

theorem insertDesc_perm (f : α → ℚ) (x : α) (l : List α) :
    List.Perm (insertDesc f x l) (x :: l) := by
  induction l with
  | nil => simp [insertDesc]
  | cons a as ih =>
    simp only [insertDesc]
    split
    · exact (ih.cons a).trans (List.Perm.swap x a as)
    · exact List.Perm.refl _

theorem sortDesc_perm (f : α → ℚ) (l : List α) : List.Perm (sortDesc f l) l := by
  induction l with
  | nil => exact List.Perm.refl _
  | cons a as ih =>
    exact (insertDesc_perm f a (sortDesc f as)).trans (ih.cons a)

theorem insertDesc_sorted (f : α → ℚ) (x : α) (l : List α)
    (h : l.Pairwise (fun a b => f b ≤ f a)) :
    (insertDesc f x l).Pairwise (fun a b => f b ≤ f a) := by
  induction l with
  | nil => simp [insertDesc]
  | cons a as ih =>
    rcases List.pairwise_cons.mp h with ⟨ha, has⟩
    simp only [insertDesc]
    split
    · rename_i hlt
      refine List.pairwise_cons.mpr ⟨?_, ih has⟩
      intro b hb
      rcases List.mem_cons.mp ((insertDesc_perm f x as).mem_iff.mp hb) with rfl | hbas
      · exact le_of_lt hlt
      · exact ha b hbas
    · rename_i hnlt
      refine List.pairwise_cons.mpr ⟨?_, h⟩
      intro b hb
      rcases List.mem_cons.mp hb with rfl | hbas
      · exact le_of_not_lt hnlt
      · exact le_trans (ha b hbas) (le_of_not_lt hnlt)

theorem sortDesc_sorted (f : α → ℚ) (l : List α) :
    (sortDesc f l).Pairwise (fun a b => f b ≤ f a) := by
  induction l with
  | nil => simp [sortDesc]
  | cons a as ih => exact insertDesc_sorted f a _ ih

/-! ## Data model (`parser/types.ts`) -/

/-- `TracePhase = 'B' | 'E' | 'X' | 'M' | 'I'` -/
inductive TracePhase where
  | B | E | X | M | I
deriving DecidableEq

/-- `TraceCategory` string-literal union. -/
inductive TraceCategory where
  | parse | bind | check | checkTypes | program | emit | metadata
deriving DecidableEq

/-- Rendering of a `TraceCategory` value (the string literal itself). -/
def TraceCategory.render : TraceCategory → String
  | .parse => "parse"
  | .bind => "bind"
  | .check => "check"
  | .checkTypes => "checkTypes"
  | .program => "program"
  | .emit => "emit"
  | .metadata => "__metadata"

/-- A JSON value stored in an event's argument bag.  The fields the code
reads are strings (file-path keys, snippets) and numbers (`pos`, `end`,
`kind`, type ids, line/column). -/
inductive JVal where
  | str (s : String)
  | num (q : ℚ)
deriving DecidableEq

/-- `TraceEventArgs`: a free-form argument bag, modelled as an association
list; JS property lookup is `List.lookup`. -/
abbrev ArgsBag := List (String × JVal)

/-- `TraceEvent` (one entry of the raw trace array). -/
structure TraceEvent where
  pid : ℕ
  tid : ℕ
  ph : TracePhase
  cat : TraceCategory
  ts : ℚ
  name : String
  dur : Option ℚ := none
  args : Option ArgsBag := none
deriving DecidableEq

/-- `ProcessedEvent`. -/
structure ProcessedEvent where
  id : String
  name : String
  category : TraceCategory
  startTime : ℚ
  duration : ℚ
  filePath : Option String := none
  args : Option ArgsBag := none
deriving DecidableEq

instance : Inhabited ProcessedEvent :=
  ⟨{ id := "", name := "", category := .parse, startTime := 0, duration := 0 }⟩

/-! ## Event reconstruction (`parser/event-processor` source) -/

/-- JS string truthiness applied to an optional bag value: a candidate
file-path value is used only when it is a non-empty string (the
`TraceEventArgs` type declares the four path keys as strings; `""` is
falsy and falls through, and a final falsy result is itself falsy at
every use site, so it is collapsed to `none`). -/
def truthyStr : Option JVal → Option String
  | some (.str s) => if s = "" then none else some s
  | _ => none

/-- `extractFilePath`: try `path`, `fileName`, `containingFileName`,
`configFilePath` in order; `undefined` when the bag is absent. -/
def extractFilePath (e : TraceEvent) : Option String :=
  match e.args with
  | none => none
  | some bag =>
      truthyStr (bag.lookup "path") <|>
      truthyStr (bag.lookup "fileName") <|>
      truthyStr (bag.lookup "containingFileName") <|>
      truthyStr (bag.lookup "configFilePath")

/-- `{ ...a, ...b }`: key-collision resolution is right-biased (`b` wins).
An absent bag spreads to nothing.  Represented so that `List.lookup` finds
`b`'s entry first; key order inside a bag is never observed. -/
def mergeArgs (a b : Option ArgsBag) : ArgsBag :=
  b.getD [] ++ a.getD []

/-- The composite stack key `` `${pid}-${tid}-${name}-${cat}` ``. -/
def stackKey (e : TraceEvent) : String :=
  toString e.pid ++ "-" ++ toString e.tid ++ "-" ++ e.name ++ "-" ++ e.cat.render

/-- `EventStack` entry: the pending begin event and its timestamp. -/
structure EventStack where
  event : TraceEvent
  startTime : ℚ
deriving DecidableEq

/-- Insertion position for `insertSorted`'s binary search
(`low`/`high`/`mid` exactly as in the source; `>>> 1` is division by 2). -/
def lbAux (arr : List ProcessedEvent) (t : ℚ) (low high : ℕ) : ℕ :=
  if _h : low < high then
    let mid := (low + high) / 2
    if ((arr.getD mid default).startTime < t) then
      lbAux arr t (mid + 1) high
    else
      lbAux arr t low mid
  else
    low
termination_by high - low
decreasing_by
  · have hmid : (low + high) / 2 < high := by omega
    omega
  · have hmid : (low + high) / 2 < high := by omega
    omega

/-- `arr.splice(low, 0, event)`: insert at index `low` (appends when `low`
is past the end). -/
def spliceIn : ℕ → α → List α → List α
  | 0, x, l => x :: l
  | _ + 1, x, [] => [x]
  | n + 1, x, a :: l => a :: spliceIn n x l

/-- `insertSorted`: fast path appends when the array is empty or the event
belongs at the end; otherwise insert at the binary-search lower bound. -/
def insertSorted (arr : List ProcessedEvent) (e : ProcessedEvent) : List ProcessedEvent :=
  match arr.getLast? with
  | none => arr ++ [e]
  | some last =>
      if last.startTime ≤ e.startTime then arr ++ [e]
      else spliceIn (lbAux arr e.startTime 0 arr.length) e arr

/-- The body of `processEvents`' main loop: fold over the (sorted) retained
events carrying the per-key LIFO stks (a JS `Map` whose iteration order
is never observed, modelled as an update function; `push`/`pop` act on the
head), the output array and the id counter. -/
def processLoop (minTs : ℚ) :
    List TraceEvent → (String → List EventStack) → List ProcessedEvent → ℕ →
    List ProcessedEvent
  | [], _, processed, _ => processed
  | e :: rest, stks, processed, ctr =>
    match e.ph with
    | .X =>
        processLoop minTs rest stks
          (insertSorted processed
            { id := "event-" ++ toString ctr
              name := e.name
              category := e.cat
              startTime := (e.ts - minTs) / 1000
              duration := e.dur.getD 0 / 1000
              filePath := extractFilePath e
              args := e.args })
          (ctr + 1)
    | .B =>
        processLoop minTs rest
          (fun k => if k = stackKey e then ⟨e, e.ts⟩ :: stks (stackKey e) else stks k)
          processed ctr
    | .E =>
        match stks (stackKey e) with
        | [] => processLoop minTs rest stks processed ctr
        | entry :: restStack =>
            processLoop minTs rest
              (fun k => if k = stackKey e then restStack else stks k)
              (insertSorted processed
                { id := "event-" ++ toString ctr
                  name := entry.event.name
                  category := entry.event.cat
                  startTime := (entry.startTime - minTs) / 1000
                  duration := (e.ts - entry.startTime) / 1000
                  filePath := extractFilePath entry.event <|> extractFilePath e
                  args := some (mergeArgs entry.event.args e.args) })
              (ctr + 1)
    | _ => processLoop minTs rest stks processed ctr

/-- `processEvents`: filter out metadata events, sort by timestamp
(stable), normalize against the minimum retained timestamp and run the
matching loop. -/
def processEvents (rawEvents : List TraceEvent) : List ProcessedEvent :=
  let events := sortAsc (·.ts) (rawEvents.filter (fun e => e.ph ≠ TracePhase.M))
  match events with
  | [] => []
  | e0 :: _ => processLoop e0.ts events (fun _ => []) [] 0

/-! ## Sortedness of `insertSorted` and `processEvents` -/

/-- Output order of `ProcessedEvent` lists: non-decreasing `startTime`. -/
def SortedByStart (l : List ProcessedEvent) : Prop :=
  l.Pairwise (fun a b => a.startTime ≤ b.startTime)

theorem spliceIn_eq_take_drop (n : ℕ) (x : α) (l : List α) :
    spliceIn n x l = l.take n ++ x :: l.drop n := by
  induction n generalizing l with
  | zero => simp [spliceIn]
  | succ n ih =>
    cases l with
    | nil => simp [spliceIn]
    | cons a as => simp [spliceIn, ih]

theorem spliceIn_perm (n : ℕ) (x : α) (l : List α) :
    List.Perm (spliceIn n x l) (x :: l) := by
  rw [spliceIn_eq_take_drop]
  calc List.Perm (l.take n ++ x :: l.drop n) (x :: (l.take n ++ l.drop n)) :=
        (List.perm_middle).trans (List.Perm.refl _)
    _ = x :: l := by rw [List.take_append_drop]

theorem mem_take_of_index {P : α → Prop} (d : α) (n : ℕ) (l : List α)
    (h : ∀ i, i < n → i < l.length → P (l.getD i d)) :
    ∀ a ∈ l.take n, P a := by
  intro a ha
  obtain ⟨i, hi, hget⟩ := List.getElem_of_mem ha
  have hi' := hi
  rw [List.length_take] at hi'
  have hin : i < n := lt_of_lt_of_le hi' (min_le_left _ _)
  have hil : i < l.length := lt_of_lt_of_le hi' (min_le_right _ _)
  rw [List.getElem_take] at hget
  have := h i hin hil
  rw [List.getD_eq_getElem l d hil] at this
  rwa [hget] at this

theorem mem_drop_of_index {P : α → Prop} (d : α) (n : ℕ) (l : List α)
    (h : ∀ i, n ≤ i → i < l.length → P (l.getD i d)) :
    ∀ a ∈ l.drop n, P a := by
  intro a ha
  obtain ⟨i, hi, hget⟩ := List.getElem_of_mem ha
  have hi' := hi
  rw [List.length_drop] at hi'
  have hil : n + i < l.length := by omega
  rw [List.getElem_drop] at hget
  have := h (n + i) (Nat.le_add_right n i) hil
  rw [List.getD_eq_getElem l d hil] at this
  rwa [hget] at this

/-- Binary-search invariant: on a sorted array, `lbAux` computes an index
`r` splitting the array into a prefix of `startTime < t` and a suffix of
`startTime ≥ t`. -/
theorem lbAux_spec (arr : List ProcessedEvent) (t : ℚ)
    (hs : SortedByStart arr) :
    ∀ fuel low high, high - low ≤ fuel → low ≤ high → high ≤ arr.length →
      (∀ i, i < low → i < arr.length → (arr.getD i default).startTime < t) →
      (∀ i, high ≤ i → i < arr.length → ¬ (arr.getD i default).startTime < t) →
      lbAux arr t low high ≤ arr.length ∧
      (∀ i, i < lbAux arr t low high → i < arr.length →
        (arr.getD i default).startTime < t) ∧
      (∀ i, lbAux arr t low high ≤ i → i < arr.length →
        ¬ (arr.getD i default).startTime < t) := by
  have hmono : ∀ i j, i ≤ j → j < arr.length →
      (arr.getD i default).startTime ≤ (arr.getD j default).startTime := by
    intro i j hij hj
    rcases eq_or_lt_of_le hij with rfl | hlt
    · exact le_refl _
    · have hi : i < arr.length := lt_trans hlt hj
      rw [List.getD_eq_getElem arr default hi, List.getD_eq_getElem arr default hj]
      exact List.pairwise_iff_getElem.mp hs i j hi hj hlt
  intro fuel
  induction fuel with
  | zero =>
    intro low high hf hlh hha hlow hhigh
    have : low = high := by omega
    subst this
    rw [lbAux]
    simp only [lt_irrefl, dite_false]
    exact ⟨hha, hlow, hhigh⟩
  | succ fuel ih =>
    intro low high hf hlh hha hlow hhigh
    rw [lbAux]
    by_cases hlt : low < high
    · simp only [hlt, dite_true]
      set mid := (low + high) / 2 with hmid
      have hmlt : mid < high := by omega
      have hmge : low ≤ mid := by omega
      by_cases hc : (arr.getD mid default).startTime < t
      · simp only [hc, if_true]
        refine ih (mid + 1) high (by omega) (by omega) hha ?_ hhigh
        intro i hi hil
        have : (arr.getD i default).startTime ≤ (arr.getD mid default).startTime :=
          hmono i mid (by omega) (by omega)
        exact lt_of_le_of_lt this hc
      · simp only [hc, if_false]
        refine ih low mid (by omega) (by omega) (by omega) hlow ?_
        intro i hi hil
        intro hcon
        exact hc (lt_of_le_of_lt (hmono mid i hi hil) hcon)
    · simp only [hlt, dite_false]
      have : low = high := by omega
      subst this
      exact ⟨hha, hlow, hhigh⟩

theorem sorted_le_getLast :
    ∀ (l : List ProcessedEvent) (last : ProcessedEvent), SortedByStart l →
      l.getLast? = some last → ∀ a ∈ l, a.startTime ≤ last.startTime := by
  intro l
  induction l with
  | nil => intro last _ h; simp at h
  | cons x xs ih =>
    intro last hs hlast a ha
    rcases List.pairwise_cons.mp hs with ⟨hx, hxs⟩
    cases xs with
    | nil =>
      rw [List.getLast?_singleton, Option.some_inj] at hlast
      have hax : a = x := by simpa using ha
      rw [hax, ← hlast]
    | cons y ys =>
      have hlast' : (y :: ys).getLast? = some last := by
        rwa [List.getLast?_cons_cons] at hlast
      have hmem : last ∈ y :: ys := by
        obtain ⟨hne, heq⟩ := List.mem_getLast?_eq_getLast (Option.mem_def.mpr hlast')
        rw [heq]
        exact List.getLast_mem hne
      rcases List.mem_cons.mp ha with rfl | ha'
      · exact hx last hmem
      · exact ih last hxs hlast' a ha' 

theorem insertSorted_sorted (arr : List ProcessedEvent) (e : ProcessedEvent)
    (hs : SortedByStart arr) : SortedByStart (insertSorted arr e) := by
  unfold insertSorted
  cases hlast : arr.getLast? with
  | none =>
    have : arr = [] := List.getLast?_eq_none_iff.mp hlast
    subst this
    simp [SortedByStart]
  | some last =>
    by_cases hle : last.startTime ≤ e.startTime
    · simp only [hle, if_true]
      refine List.pairwise_append.mpr ⟨hs, List.pairwise_singleton _ _, ?_⟩
      intro a ha b hb
      rw [List.mem_singleton] at hb
      subst hb
      exact le_trans (sorted_le_getLast arr last hs hlast a ha) hle
    · simp only [hle, if_false]
      obtain ⟨hrle, hpre, hsuf⟩ := lbAux_spec arr e.startTime hs arr.length 0 arr.length
        (by omega) (Nat.zero_le _) (le_refl _)
        (by intro i hi; omega)
        (by intro i hi hil; omega)
      set r := lbAux arr e.startTime 0 arr.length with hr
      rw [spliceIn_eq_take_drop]
      have htake : ∀ a ∈ arr.take r, a.startTime < e.startTime :=
        mem_take_of_index default r arr (fun i hi hil => hpre i hi hil)
      have hdrop : ∀ a ∈ arr.drop r, e.startTime ≤ a.startTime :=
        mem_drop_of_index default r arr (fun i hi hil => le_of_not_lt (hsuf i hi hil))
      refine List.pairwise_append.mpr ⟨?_, ?_, ?_⟩
      · exact hs.sublist (List.take_sublist r arr)
      · refine List.pairwise_cons.mpr ⟨hdrop, ?_⟩
        exact hs.sublist (List.drop_sublist r arr)
      · intro a ha b hb
        rcases List.mem_cons.mp hb with rfl | hb'
        · exact le_of_lt (htake a ha)
        · exact le_trans (le_of_lt (htake a ha)) (hdrop b hb')

theorem insertSorted_perm (arr : List ProcessedEvent) (e : ProcessedEvent) :
    List.Perm (insertSorted arr e) (e :: arr) := by
  unfold insertSorted
  cases hlast : arr.getLast? with
  | none =>
    have : arr = [] := List.getLast?_eq_none_iff.mp hlast
    subst this
    simp
  | some last =>
    by_cases hle : last.startTime ≤ e.startTime
    · simp only [hle, if_true]
      exact List.perm_append_singleton e arr
    · simp only [hle, if_false]
      exact spliceIn_perm _ e arr

theorem processLoop_sorted (minTs : ℚ) (events : List TraceEvent) :
    ∀ stks processed ctr, SortedByStart processed →
      SortedByStart (processLoop minTs events stks processed ctr) := by
  induction events with
  | nil => intro stks processed ctr h; exact h
  | cons e rest ih =>
    intro stks processed ctr h
    cases hph : e.ph with
    | X =>
      simp only [processLoop, hph]
      exact ih _ _ _ (insertSorted_sorted _ _ h)
    | B =>
      simp only [processLoop, hph]
      exact ih _ _ _ h
    | E =>
      simp only [processLoop, hph]
      cases stks (stackKey e) with
      | nil => exact ih _ _ _ h
      | cons entry restStack => exact ih _ _ _ (insertSorted_sorted _ _ h)
    | M =>
      simp only [processLoop, hph]
      exact ih _ _ _ h
    | I =>
      simp only [processLoop, hph]
      exact ih _ _ _ h

/-- C1.  For every list of raw trace events, the list returned by
`processEvents` is ordered non-decreasing by `startTime` (every element's
`startTime` is less than or equal to the next element's `startTime`),
regardless of the interleaving of Complete events and begin/end pairs in
the input. -/
theorem processEvents_sorted_by_startTime (rawEvents : List TraceEvent) :
    (processEvents rawEvents).Pairwise (fun a b => a.startTime ≤ b.startTime) := by
  unfold processEvents
  cases h : sortAsc (·.ts) (rawEvents.filter (fun e => e.ph ≠ TracePhase.M)) with
  | nil => simp
  | cons e0 rest =>
    exact processLoop_sorted e0.ts (e0 :: rest) _ [] 0 (List.Pairwise.nil)

/-! ## Malformed pairing (C4) and event invariants (C8) -/

theorem insertSorted_mem (arr : List ProcessedEvent) (e x : ProcessedEvent)
    (hx : x ∈ insertSorted arr e) : x = e ∨ x ∈ arr := by
  have := (insertSorted_perm arr e).mem_iff.mp hx
  rwa [List.mem_cons] at this


/-- Reference matching discipline (spec, "unmatched events"): per-key
pending-begin depths.  A begin event deepens its key, an end event finding
a positive depth is matched with the most recent pending begin and pops
it, an end event finding depth zero is unmatched and skipped, and every
other phase leaves the depths unchanged; the result counts the matched
end events. -/
def matchedEnds : (String → ℕ) → List TraceEvent → ℕ
  | _, [] => 0
  | depths, e :: rest =>
    match e.ph with
    | .B =>
        matchedEnds (fun k => if k = stackKey e then depths (stackKey e) + 1 else depths k) rest
    | .E =>
        if depths (stackKey e) = 0 then matchedEnds depths rest
        else 1 + matchedEnds (fun k => if k = stackKey e then depths (stackKey e) - 1 else depths k) rest
    | _ => matchedEnds depths rest

theorem insertSorted_length (arr : List ProcessedEvent) (e : ProcessedEvent) :
    (insertSorted arr e).length = arr.length + 1 := by
  have h := (insertSorted_perm arr e).length_eq
  simpa using h

/-- Every iteration of the loop emits exactly one event for a Complete
event and one for an end event matched by the LIFO discipline, and
nothing otherwise: the final output length is the input length of
`processed` plus the number of Complete events plus the number of matched
end events, starting from the depths of the carried stacks. -/
theorem processLoop_length (minTs : ℚ) :
    ∀ (events : List TraceEvent) (stks : String → List EventStack)
      (processed : List ProcessedEvent) (ctr : ℕ),
      (processLoop minTs events stks processed ctr).length =
        processed.length + (events.filter (fun e => e.ph = TracePhase.X)).length +
          matchedEnds (fun k => (stks k).length) events := by
  intro events
  induction events with
  | nil =>
    intro stks processed ctr
    simp [processLoop, matchedEnds]
  | cons e rest ih =>
    intro stks processed ctr
    cases hph : e.ph with
    | X =>
      simp only [processLoop, hph, matchedEnds]
      rw [ih, insertSorted_length, List.filter_cons_of_pos (by simp [hph])]
      simp only [List.length_cons]
      omega
    | B =>
      simp only [processLoop, hph, matchedEnds]
      rw [ih, List.filter_cons_of_neg (by simp [hph])]
      congr 1
      congr 1
      funext k
      by_cases hk : k = stackKey e <;> simp [hk]
    | E =>
      cases hstk : stks (stackKey e) with
      | nil =>
        simp only [processLoop, hph, hstk, matchedEnds]
        rw [ih, List.filter_cons_of_neg (by simp [hph])]
        rw [if_pos (by simp [hstk])]
      | cons entry restStack =>
        simp only [processLoop, hph, hstk, matchedEnds]
        rw [ih, insertSorted_length, List.filter_cons_of_neg (by simp [hph])]
        rw [if_neg (by simp [hstk])]
        have hm : matchedEnds
            (fun k => ((if k = stackKey e then restStack else stks k) : List EventStack).length) rest =
            matchedEnds
              (fun k => if k = stackKey e then (entry :: restStack).length - 1 else (stks k).length)
              rest := by
          congr 1
          funext k
          by_cases hk : k = stackKey e <;> simp [hk]
        simp only [hm]
        omega
    | M =>
      simp only [processLoop, hph, matchedEnds]
      rw [ih, List.filter_cons_of_neg (by simp [hph])]
    | I =>
      simp only [processLoop, hph, matchedEnds]
      rw [ih, List.filter_cons_of_neg (by simp [hph])]

/-- Concrete mixed malformed traces: a begin closed by one end with a
second, unmatched end emits a single event, and two nested begins of the
same key with a single end (which closes the most recent begin, leaving
the outer begin pending forever) also emit a single event. -/
theorem processEvents_mixed_eval :
    (processEvents
        [{ pid := 1, tid := 1, ph := TracePhase.B, cat := TraceCategory.check, ts := 1, name := "checkExpression" },
         { pid := 1, tid := 1, ph := TracePhase.E, cat := TraceCategory.check, ts := 2, name := "checkExpression" },
         { pid := 1, tid := 1, ph := TracePhase.E, cat := TraceCategory.check, ts := 3, name := "checkExpression" }]).length = 1 ∧
    (processEvents
        [{ pid := 1, tid := 1, ph := TracePhase.B, cat := TraceCategory.check, ts := 1, name := "checkExpression" },
         { pid := 1, tid := 1, ph := TracePhase.B, cat := TraceCategory.check, ts := 2, name := "checkExpression" },
         { pid := 1, tid := 1, ph := TracePhase.E, cat := TraceCategory.check, ts := 3, name := "checkExpression" }]).length = 1 := by
  constructor <;> rfl

/-- C4.  For every raw event sequence, an end event whose composite key
has no pending begin at its point in the sorted order produces no output
event (it is skipped, no exception), and a begin event that is never
closed produces no output event: the output length is exactly the number
of Complete events plus the number of end events matched by the per-key
LIFO discipline. -/
theorem processEvents_drops_unmatched (rawEvents : List TraceEvent) :
    (processEvents rawEvents).length =
      (rawEvents.filter (fun e => e.ph = TracePhase.X)).length +
        matchedEnds (fun _ => 0)
          (sortAsc (·.ts) (rawEvents.filter (fun e => e.ph ≠ TracePhase.M))) := by
  have hXlen : ((sortAsc (·.ts) (rawEvents.filter (fun e => e.ph ≠ TracePhase.M))).filter
        (fun e => e.ph = TracePhase.X)).length =
      (rawEvents.filter (fun e => e.ph = TracePhase.X)).length := by
    rw [((sortAsc_perm (·.ts) (rawEvents.filter (fun e => e.ph ≠ TracePhase.M))).filter
      (fun e => decide (e.ph = TracePhase.X))).length_eq]
    rw [List.filter_filter]
    congr 1
    apply List.filter_congr
    intro e _
    cases he : e.ph <;> simp [he]
  unfold processEvents
  cases hev : sortAsc (·.ts) (rawEvents.filter (fun e => e.ph ≠ TracePhase.M)) with
  | nil =>
    rw [hev] at hXlen
    simp only [List.filter_nil, List.length_nil] at hXlen
    simp [matchedEnds, ← hXlen]
  | cons e0 rest =>
    rw [hev] at hXlen
    rw [processLoop_length, hXlen]
    have hz : (fun k => ((fun _ => ([] : List EventStack)) k).length) = (fun _ : String => 0) := by
      funext k
      simp
    rw [hz]
    simp

theorem mem_of_mem_sorted_filter (rawEvents : List TraceEvent) (e : TraceEvent)
    (h : e ∈ sortAsc (·.ts) (rawEvents.filter (fun e => e.ph ≠ TracePhase.M))) :
    e ∈ rawEvents :=
  List.mem_of_mem_filter ((sortAsc_perm (·.ts) _).mem_iff.mp h)


/-- Invariant carried through the matching loop: over a timestamp-sorted
remainder whose Complete events carry nonnegative durations, with all
pending begins no later than every remaining event and no earlier than
`minTs`, all emitted events have nonnegative duration and start time. -/
theorem processLoop_nonneg (minTs : ℚ) :
    ∀ (events : List TraceEvent) (stks : String → List EventStack)
      (processed : List ProcessedEvent) (ctr : ℕ),
      events.Pairwise (fun a b => a.ts ≤ b.ts) →
      (∀ e ∈ events, minTs ≤ e.ts) →
      (∀ e ∈ events, e.ph = TracePhase.X → 0 ≤ e.dur.getD 0) →
      (∀ k, ∀ entry ∈ stks k, minTs ≤ entry.startTime ∧
        ∀ e ∈ events, entry.startTime ≤ e.ts) →
      (∀ pe ∈ processed, 0 ≤ pe.duration ∧ 0 ≤ pe.startTime) →
      ∀ pe ∈ processLoop minTs events stks processed ctr,
        0 ≤ pe.duration ∧ 0 ≤ pe.startTime := by
  intro events
  induction events with
  | nil => intro stks processed ctr _ _ _ _ hacc; exact hacc
  | cons e rest ih =>
    intro stks processed ctr hsort hmin hdur hstk hacc
    rcases List.pairwise_cons.mp hsort with ⟨hts, hsort'⟩
    have hmin' : ∀ e' ∈ rest, minTs ≤ e'.ts :=
      fun e' h' => hmin e' (List.mem_cons_of_mem e h')
    have hdur' : ∀ e' ∈ rest, e'.ph = TracePhase.X → 0 ≤ e'.dur.getD 0 :=
      fun e' h' => hdur e' (List.mem_cons_of_mem e h')
    cases hphe : e.ph with
    | X =>
      simp only [processLoop, hphe]
      refine ih _ _ _ hsort' hmin' hdur' ?_ ?_
      · intro k entry hentry
        rcases hstk k entry hentry with ⟨h1, h2⟩
        exact ⟨h1, fun e' h' => h2 e' (List.mem_cons_of_mem e h')⟩
      · intro pe hpe
        rcases insertSorted_mem _ _ _ hpe with rfl | hmem
        · constructor
          · exact div_nonneg (hdur e (List.mem_cons_self e rest) hphe) (by norm_num)
          · exact div_nonneg (by linarith [hmin e (List.mem_cons_self e rest)]) (by norm_num)
        · exact hacc pe hmem
    | B =>
      simp only [processLoop, hphe]
      refine ih _ _ _ hsort' hmin' hdur' ?_ hacc
      intro k entry hentry
      by_cases hk : k = stackKey e
      · simp only [hk, if_pos rfl] at hentry
        rcases List.mem_cons.mp hentry with rfl | hmem
        · exact ⟨hmin e (List.mem_cons_self e rest), fun e' h' => hts e' h'⟩
        · rcases hstk (stackKey e) entry hmem with ⟨h1, h2⟩
          exact ⟨h1, fun e' h' => h2 e' (List.mem_cons_of_mem e h')⟩
      · simp only [if_neg hk] at hentry
        rcases hstk k entry hentry with ⟨h1, h2⟩
        exact ⟨h1, fun e' h' => h2 e' (List.mem_cons_of_mem e h')⟩
    | E =>
      simp only [processLoop, hphe]
      cases hst : stks (stackKey e) with
      | nil =>
        refine ih _ _ _ hsort' hmin' hdur' ?_ hacc
        intro k entry hentry
        rcases hstk k entry hentry with ⟨h1, h2⟩
        exact ⟨h1, fun e' h' => h2 e' (List.mem_cons_of_mem e h')⟩
      | cons entry restStack =>
        have hentry : entry ∈ stks (stackKey e) := by
          rw [hst]; exact List.mem_cons_self _ _
        rcases hstk (stackKey e) entry hentry with ⟨hge, hle⟩
        refine ih _ _ _ hsort' hmin' hdur' ?_ ?_
        · intro k entry' hentry'
          by_cases hk : k = stackKey e
          · subst hk
            simp only [if_pos rfl] at hentry'
            have : entry' ∈ stks (stackKey e) := by
              rw [hst]; exact List.mem_cons_of_mem _ hentry'
            rcases hstk (stackKey e) entry' this with ⟨h1, h2⟩
            exact ⟨h1, fun e' h' => h2 e' (List.mem_cons_of_mem e h')⟩
          · simp only [if_neg hk] at hentry'
            rcases hstk k entry' hentry' with ⟨h1, h2⟩
            exact ⟨h1, fun e' h' => h2 e' (List.mem_cons_of_mem e h')⟩
        · intro pe hpe
          rcases insertSorted_mem _ _ _ hpe with rfl | hmem
          · constructor
            · have : entry.startTime ≤ e.ts := hle e (List.mem_cons_self e rest)
              exact div_nonneg (by linarith) (by norm_num)
            · exact div_nonneg (by linarith) (by norm_num)
          · exact hacc pe hmem
    | M =>
      simp only [processLoop, hphe]
      refine ih _ _ _ hsort' hmin' hdur' ?_ hacc
      intro k entry hentry
      rcases hstk k entry hentry with ⟨h1, h2⟩
      exact ⟨h1, fun e' h' => h2 e' (List.mem_cons_of_mem e h')⟩
    | I =>
      simp only [processLoop, hphe]
      refine ih _ _ _ hsort' hmin' hdur' ?_ hacc
      intro k entry hentry
      rcases hstk k entry hentry with ⟨h1, h2⟩
      exact ⟨h1, fun e' h' => h2 e' (List.mem_cons_of_mem e h')⟩

/-- A lone Complete event is emitted directly with its own explicit
duration (defaulting to 0 when the field is absent), converted to
milliseconds. -/
theorem processEvents_single_complete (e : TraceEvent) (hX : e.ph = TracePhase.X) :
    processEvents [e] = [{ id := "event-0", name := e.name, category := e.cat, startTime := 0, duration := e.dur.getD 0 / 1000, filePath := extractFilePath e, args := e.args }] := by
  unfold processEvents
  have hfil : [e].filter (fun e => e.ph ≠ TracePhase.M) = [e] := by
    simp [List.filter, hX]
  rw [hfil]
  have hsrt : sortAsc (·.ts) [e] = [e] := by
    simp [sortAsc, insertAsc]
  rw [hsrt]
  simp only [processLoop, hX, insertSorted]
  simp [sub_self, zero_div]
  decide

/-- C8 (amended).  Provided every Complete (`X`) raw event's explicit
duration is nonnegative (when present; absence defaults to 0), every
`ProcessedEvent` produced by `processEvents` satisfies `duration ≥ 0` and
`startTime ≥ 0`; moreover a Complete event is emitted with its own
explicit duration converted to milliseconds, defaulting to 0 when absent.
The nonnegativity proviso is forced: the code does not sanitize a negative
explicit `dur` field (see the counterexample). -/
theorem processEvents_nonneg_invariants (rawEvents : List TraceEvent)
    (hdur : ∀ e ∈ rawEvents, e.ph = TracePhase.X → 0 ≤ e.dur.getD 0) :
    (∀ pe ∈ processEvents rawEvents, 0 ≤ pe.duration ∧ 0 ≤ pe.startTime) ∧
    (∀ e : TraceEvent, e.ph = TracePhase.X →
      processEvents [e] = [{ id := "event-0", name := e.name, category := e.cat, startTime := 0, duration := e.dur.getD 0 / 1000, filePath := extractFilePath e, args := e.args }]) := by
  constructor
  · unfold processEvents
    cases hev : sortAsc (·.ts) (rawEvents.filter (fun e => e.ph ≠ TracePhase.M)) with
    | nil => intro pe hpe; cases hpe
    | cons e0 rest =>
      have hsorted : (e0 :: rest).Pairwise (fun a b => a.ts ≤ b.ts) := by
        rw [← hev]; exact sortAsc_sorted _ _
      refine processLoop_nonneg e0.ts (e0 :: rest) _ [] 0 hsorted ?_ ?_
        (by intro k entry h; cases h) (by intro pe h; cases h)
      · intro e he
        rcases List.mem_cons.mp he with rfl | hmem
        · exact le_refl _
        · exact (List.pairwise_cons.mp hsorted).1 e hmem
      · intro e he hX
        exact hdur e (mem_of_mem_sorted_filter rawEvents e (hev ▸ he)) hX
  · exact processEvents_single_complete

/-- Closed witness for C8's amended theorem: a single Complete event with
explicit duration 2µs. -/
theorem processEvents_nonneg_invariants_witness :
    processEvents [{ pid := 1, tid := 1, ph := TracePhase.X, cat := TraceCategory.check, ts := 7, name := "checkExpression", dur := some 2 }] = [{ id := "event-0", name := "checkExpression", category := TraceCategory.check, startTime := 0, duration := 2 / 1000, filePath := none, args := none }] :=
  (processEvents_nonneg_invariants [] (by intro e he; cases he)).2 _ rfl

/-- C8 counterexample: a Complete event with a negative explicit duration
is emitted with negative duration, so the unconditional `duration ≥ 0`
invariant fails on the code as stated. -/
theorem processEvents_negative_duration_cex :
    (processEvents [{ pid := 1, tid := 1, ph := TracePhase.X, cat := TraceCategory.check, ts := 7, name := "checkExpression", dur := some (-1000) }]).map ProcessedEvent.duration = [-1] := by
  rw [processEvents_single_complete _ rfl]
  norm_num

/-! ## LIFO pairing (C2) and file-path resolution (C10) -/

theorem mergeArgs_lookup (a b : Option ArgsBag) (k : String) :
    (mergeArgs a b).lookup k = ((b.getD []).lookup k).or ((a.getD []).lookup k) := by
  simp [mergeArgs, List.lookup_append]

theorem extractFilePath_eq_chain (e : TraceEvent) :
    extractFilePath e = (truthyStr ((e.args.getD []).lookup "path")).or
      ((truthyStr ((e.args.getD []).lookup "fileName")).or
      ((truthyStr ((e.args.getD []).lookup "containingFileName")).or
      (truthyStr ((e.args.getD []).lookup "configFilePath")))) := by
  cases h : e.args with
  | none => simp [extractFilePath, h, truthyStr]
  | some bag =>
    simp only [extractFilePath, h, Option.getD_some]
    simp only [Option.or_eq_orElse]
    rfl

theorem insertSorted_nil (e : ProcessedEvent) : insertSorted [] e = [e] := rfl

theorem insertSorted_singleton_lt (a e : ProcessedEvent)
    (h : e.startTime < a.startTime) : insertSorted [a] e = [e, a] := by
  unfold insertSorted
  rw [List.getLast?_singleton]
  dsimp only
  rw [if_neg (not_le.mpr h)]
  rw [lbAux]
  norm_num
  rw [if_neg (by exact fun hc => absurd hc (lt_asymm h))]
  rw [lbAux]
  simp [spliceIn]

/-- C2.  For begins B1, B2 with the same composite key (B1 before B2)
followed by ends E1, E2 for that key in that order, `processEvents`
matches E1 with B2 (LIFO, innermost-first); each matched pair yields one
`ProcessedEvent` whose duration is end timestamp minus begin timestamp
converted to milliseconds, whose start time is the begin's timestamp
normalized by the minimum retained timestamp, and whose argument bag is
the merge of both events' bags with the end event's fields overriding on
key collision (second conjunct, as a lookup law). -/
theorem processEvents_lifo_pair_matching
    (p t : ℕ) (nm : String) (cat : TraceCategory) (ts1 ts2 ts3 ts4 : ℚ)
    (d1 d2 d3 d4 : Option ℚ) (a1 a2 a3 a4 : Option ArgsBag)
    (h12 : ts1 < ts2) (h23 : ts2 ≤ ts3) (h34 : ts3 ≤ ts4) :
    processEvents
      [⟨p, t, .B, cat, ts1, nm, d1, a1⟩, ⟨p, t, .B, cat, ts2, nm, d2, a2⟩,
       ⟨p, t, .E, cat, ts3, nm, d3, a3⟩, ⟨p, t, .E, cat, ts4, nm, d4, a4⟩] =
      [{ id := "event-1", name := nm, category := cat, startTime := (ts1 - ts1) / 1000, duration := (ts4 - ts1) / 1000, filePath := extractFilePath ⟨p, t, .B, cat, ts1, nm, d1, a1⟩ <|> extractFilePath ⟨p, t, .E, cat, ts4, nm, d4, a4⟩, args := some (mergeArgs a1 a4) },
       { id := "event-0", name := nm, category := cat, startTime := (ts2 - ts1) / 1000, duration := (ts3 - ts2) / 1000, filePath := extractFilePath ⟨p, t, .B, cat, ts2, nm, d2, a2⟩ <|> extractFilePath ⟨p, t, .E, cat, ts3, nm, d3, a3⟩, args := some (mergeArgs a2 a3) }] ∧
    (∀ k, (mergeArgs a2 a3).lookup k = ((a3.getD []).lookup k).or ((a2.getD []).lookup k)) := by
  constructor
  · unfold processEvents
    have hfil : [(⟨p, t, .B, cat, ts1, nm, d1, a1⟩ : TraceEvent), ⟨p, t, .B, cat, ts2, nm, d2, a2⟩, ⟨p, t, .E, cat, ts3, nm, d3, a3⟩, ⟨p, t, .E, cat, ts4, nm, d4, a4⟩].filter (fun e => e.ph ≠ TracePhase.M) = [⟨p, t, .B, cat, ts1, nm, d1, a1⟩, ⟨p, t, .B, cat, ts2, nm, d2, a2⟩, ⟨p, t, .E, cat, ts3, nm, d3, a3⟩, ⟨p, t, .E, cat, ts4, nm, d4, a4⟩] := by
      simp [List.filter]
    rw [hfil]
    rw [sortAsc_eq_self _ _ (by
      simp
      and_intros <;> linarith)]
    simp only [processLoop, stackKey, ite_true, if_true, insertSorted_nil]
    rw [insertSorted_singleton_lt _ _ (by simp only []; linarith)]
    norm_num
    exact ⟨by decide, by decide⟩
  · intro k
    exact mergeArgs_lookup a2 a3 k

theorem processEvents_lifo_pair_matching_witness :
    processEvents
      [⟨1, 1, .B, .check, 1000, "checkExpression", none, none⟩, ⟨1, 1, .B, .check, 1100, "checkExpression", none, some [("path", JVal.str "a.ts")]⟩,
       ⟨1, 1, .E, .check, 1500, "checkExpression", none, some [("path", JVal.str "b.ts")]⟩, ⟨1, 1, .E, .check, 1600, "checkExpression", none, none⟩] =
      [{ id := "event-1", name := "checkExpression", category := .check, startTime := (1000 - 1000) / 1000, duration := (1600 - 1000) / 1000, filePath := extractFilePath ⟨1, 1, .B, .check, 1000, "checkExpression", none, none⟩ <|> extractFilePath ⟨1, 1, .E, .check, 1600, "checkExpression", none, none⟩, args := some (mergeArgs none none) },
       { id := "event-0", name := "checkExpression", category := .check, startTime := (1100 - 1000) / 1000, duration := (1500 - 1100) / 1000, filePath := extractFilePath ⟨1, 1, .B, .check, 1100, "checkExpression", none, some [("path", JVal.str "a.ts")]⟩ <|> extractFilePath ⟨1, 1, .E, .check, 1500, "checkExpression", none, some [("path", JVal.str "b.ts")]⟩, args := some (mergeArgs (some [("path", JVal.str "a.ts")]) (some [("path", JVal.str "b.ts")])) }] ∧
    (∀ k, (mergeArgs (some [("path", JVal.str "a.ts")]) (some [("path", JVal.str "b.ts")])).lookup k = (((some [("path", JVal.str "b.ts")] : Option ArgsBag).getD []).lookup k).or (((some [("path", JVal.str "a.ts")] : Option ArgsBag).getD []).lookup k)) :=
  processEvents_lifo_pair_matching 1 1 "checkExpression" .check 1000 1100 1500 1600
    none none none none none (some [("path", JVal.str "a.ts")]) (some [("path", JVal.str "b.ts")]) none
    (by norm_num) (by norm_num) (by norm_num)

/-- C10.  For a matched begin/end pair the resulting event's `filePath`
is resolved from the begin event's argument bag first, trying the keys
`path`, `fileName`, `containingFileName`, `configFilePath` in that order;
the end event's bag is consulted only when the begin event's bag yields
none — even though in the merged args bag the end event's fields
override. -/
theorem processEvents_filePath_from_begin_first
    (p t : ℕ) (nm : String) (cat : TraceCategory) (ts1 ts2 : ℚ)
    (d1 d2 : Option ℚ) (a1 a2 : Option ArgsBag) (h : ts1 ≤ ts2) :
    (processEvents [⟨p, t, .B, cat, ts1, nm, d1, a1⟩, ⟨p, t, .E, cat, ts2, nm, d2, a2⟩]).map ProcessedEvent.filePath =
      [((truthyStr ((a1.getD []).lookup "path")).or
        ((truthyStr ((a1.getD []).lookup "fileName")).or
        ((truthyStr ((a1.getD []).lookup "containingFileName")).or
        (truthyStr ((a1.getD []).lookup "configFilePath"))))).or
       ((truthyStr ((a2.getD []).lookup "path")).or
        ((truthyStr ((a2.getD []).lookup "fileName")).or
        ((truthyStr ((a2.getD []).lookup "containingFileName")).or
        (truthyStr ((a2.getD []).lookup "configFilePath")))))] := by
  unfold processEvents
  have hfil : [(⟨p, t, .B, cat, ts1, nm, d1, a1⟩ : TraceEvent), ⟨p, t, .E, cat, ts2, nm, d2, a2⟩].filter (fun e => e.ph ≠ TracePhase.M) = [⟨p, t, .B, cat, ts1, nm, d1, a1⟩, ⟨p, t, .E, cat, ts2, nm, d2, a2⟩] := by
    simp [List.filter]
  rw [hfil]
  rw [sortAsc_eq_self _ _ (by simp; linarith)]
  simp only [processLoop, stackKey, ite_true, if_true, insertSorted_nil]
  simp only [List.map_cons, List.map_nil]
  rw [extractFilePath_eq_chain, extractFilePath_eq_chain]
  simp only [Option.or_eq_orElse]
  rfl

theorem processEvents_filePath_from_begin_first_witness :
    (processEvents [⟨1, 1, .B, .check, 1000, "checkExpression", none, some [("fileName", JVal.str "a.ts")]⟩, ⟨1, 1, .E, .check, 1500, "checkExpression", none, some [("path", JVal.str "b.ts")]⟩]).map ProcessedEvent.filePath =
      [((truthyStr (((some [("fileName", JVal.str "a.ts")] : Option ArgsBag).getD []).lookup "path")).or
        ((truthyStr (((some [("fileName", JVal.str "a.ts")] : Option ArgsBag).getD []).lookup "fileName")).or
        ((truthyStr (((some [("fileName", JVal.str "a.ts")] : Option ArgsBag).getD []).lookup "containingFileName")).or
        (truthyStr (((some [("fileName", JVal.str "a.ts")] : Option ArgsBag).getD []).lookup "configFilePath"))))).or
       ((truthyStr (((some [("path", JVal.str "b.ts")] : Option ArgsBag).getD []).lookup "path")).or
        ((truthyStr (((some [("path", JVal.str "b.ts")] : Option ArgsBag).getD []).lookup "fileName")).or
        ((truthyStr (((some [("path", JVal.str "b.ts")] : Option ArgsBag).getD []).lookup "containingFileName")).or
        (truthyStr (((some [("path", JVal.str "b.ts")] : Option ArgsBag).getD []).lookup "configFilePath")))))] :=
  processEvents_filePath_from_begin_first 1 1 "checkExpression" .check 1000 1500 none none
    (some [("fileName", JVal.str "a.ts")]) (some [("path", JVal.str "b.ts")]) (by norm_num)

/-! ## File aggregation (`parser/file-aggregator.ts`) -/

/-- `FileEvents`. -/
structure FileEvents where
  filePath : String
  shortPath : String
  events : List ProcessedEvent
  totalTime : ℚ
  parseTime : ℚ
  bindTime : ℚ
  checkTime : ℚ
  emitTime : ℚ
deriving DecidableEq

/-- `shortenPath` (display only): keep from the last `node_modules`
occurrence when present (`lastIndexOf` finds one iff `splitOn` yields
more than one part, and the slice from it is `node_modules` plus the last
part); otherwise abbreviate paths of more than 4 `/`-separated segments
to an ellipsis plus the last 3. -/
def shortenPath (filePath : String) : String :=
  let nmParts := filePath.splitOn "node_modules"
  if nmParts.length > 1 then "node_modules" ++ nmParts.getLastD ""
  else
    let parts := filePath.splitOn "/"
    if parts.length > 4 then ".../" ++ String.intercalate "/" (parts.drop (parts.length - 3))
    else filePath

/-- Result record of `calculateFileTiming`. -/
structure FileTiming where
  total : ℚ
  parse : ℚ
  bind : ℚ
  check : ℚ
  emit : ℚ

/-- Running phase accumulators of `calculateFileTiming`'s loop. -/
structure PhaseSums where
  parse : ℚ := 0
  bind : ℚ := 0
  check : ℚ := 0
  emit : ℚ := 0

/-- One iteration of `calculateFileTiming`'s `switch`: `check` and
`checkTypes` share the `check` bucket; other categories fall through. -/
def bumpPhase (acc : PhaseSums) (e : ProcessedEvent) : PhaseSums :=
  match e.category with
  | .parse => { acc with parse := acc.parse + e.duration }
  | .bind => { acc with bind := acc.bind + e.duration }
  | .check => { acc with check := acc.check + e.duration }
  | .checkTypes => { acc with check := acc.check + e.duration }
  | .emit => { acc with emit := acc.emit + e.duration }
  | _ => acc

/-- `calculateFileTiming`. -/
def calculateFileTiming (events : List ProcessedEvent) : FileTiming :=
  let s := events.foldl bumpPhase {}
  { total := s.parse + s.bind + s.check + s.emit,
    parse := s.parse, bind := s.bind, check := s.check, emit := s.emit }

/-- `event.filePath || '__no_file__'` (the empty string is falsy). -/
def fileKey (e : ProcessedEvent) : String :=
  match e.filePath with
  | none => "__no_file__"
  | some s => if s = "" then "__no_file__" else s

/-- Append an event to its group in the insertion-ordered map, creating
the group at the end when absent (JS `Map` get-or-create plus `push`). -/
def groupInsert (m : List (String × List ProcessedEvent)) (k : String)
    (e : ProcessedEvent) : List (String × List ProcessedEvent) :=
  match m with
  | [] => [(k, [e])]
  | (k', g) :: rest =>
      if k' = k then (k', g ++ [e]) :: rest else (k', g) :: groupInsert rest k e

/-- The `fileMap` built by `aggregateByFile`'s grouping pass. -/
def buildFileMap (events : List ProcessedEvent) : List (String × List ProcessedEvent) :=
  events.foldl (fun m e => groupInsert m (fileKey e) e) []

/-- `aggregateByFile`: group by resolved path, skip the `__no_file__`
group, compute timings, sort descending by total time (stable). -/
def aggregateByFile (events : List ProcessedEvent) : List FileEvents :=
  let fileMap := buildFileMap events
  let fileEvents := (fileMap.filter (fun kv => kv.1 ≠ "__no_file__")).map (fun kv =>
    let timings := calculateFileTiming kv.2
    { filePath := kv.1
      shortPath := shortenPath kv.1
      events := kv.2
      totalTime := timings.total
      parseTime := timings.parse
      bindTime := timings.bind
      checkTime := timings.check
      emitTime := timings.emit : FileEvents })
  sortDesc (·.totalTime) fileEvents

/-! ## File-aggregation proofs (C3) -/

theorem foldl_bumpPhase (l : List ProcessedEvent) : ∀ acc : PhaseSums,
    (l.foldl bumpPhase acc).parse = acc.parse + ((l.filter (fun e => e.category = TraceCategory.parse)).map ProcessedEvent.duration).sum ∧
    (l.foldl bumpPhase acc).bind = acc.bind + ((l.filter (fun e => e.category = TraceCategory.bind)).map ProcessedEvent.duration).sum ∧
    (l.foldl bumpPhase acc).check = acc.check + ((l.filter (fun e => e.category = TraceCategory.check ∨ e.category = TraceCategory.checkTypes)).map ProcessedEvent.duration).sum ∧
    (l.foldl bumpPhase acc).emit = acc.emit + ((l.filter (fun e => e.category = TraceCategory.emit)).map ProcessedEvent.duration).sum := by
  induction l with
  | nil => intro acc; simp
  | cons e rest ih =>
    intro acc
    obtain ⟨hp, hb, hch, he⟩ := ih (bumpPhase acc e)
    simp only [List.foldl_cons, List.filter_cons]
    rcases hc : e.category <;>
      simp [bumpPhase, hc] at hp hb hch he ⊢ <;>
      refine ⟨by linarith, by linarith, by linarith, by linarith⟩

theorem groupInsert_lookup_self (k : String) (e : ProcessedEvent) :
    ∀ m, (groupInsert m k e).lookup k = some ((m.lookup k).getD [] ++ [e]) := by
  intro m
  induction m with
  | nil => simp [groupInsert]
  | cons kv rest ih =>
    obtain ⟨k', g⟩ := kv
    by_cases hk : k' = k
    · subst hk
      simp [groupInsert, List.lookup]
    · have hne : (k == k') = false := beq_eq_false_iff_ne.mpr (Ne.symm hk)
      simp [groupInsert, hk, List.lookup, hne, ih]

theorem groupInsert_lookup_ne (k k' : String) (e : ProcessedEvent) (h : k' ≠ k) :
    ∀ m, (groupInsert m k e).lookup k' = m.lookup k' := by
  intro m
  induction m with
  | nil => simp [groupInsert, List.lookup, beq_eq_false_iff_ne.mpr h]
  | cons kv rest ih =>
    obtain ⟨k'', g⟩ := kv
    by_cases hk : k'' = k
    · subst hk
      simp [groupInsert, List.lookup, beq_eq_false_iff_ne.mpr h]
    · by_cases hk2 : k' = k''
      · subst hk2
        simp [groupInsert, hk, List.lookup]
      · simp [groupInsert, hk, List.lookup, beq_eq_false_iff_ne.mpr hk2, ih]

theorem groupInsert_keys (k : String) (e : ProcessedEvent) :
    ∀ m : List (String × List ProcessedEvent),
      (groupInsert m k e).map Prod.fst =
        if k ∈ m.map Prod.fst then m.map Prod.fst else m.map Prod.fst ++ [k] := by
  intro m
  induction m with
  | nil => simp [groupInsert]
  | cons kv rest ih =>
    obtain ⟨k', g⟩ := kv
    by_cases hk : k' = k
    · subst hk
      simp [groupInsert]
    · simp only [groupInsert, hk, ite_false, if_neg hk, List.map_cons, ih]
      by_cases hmem : k ∈ rest.map Prod.fst
      · simp [hmem, List.mem_cons]
      · simp [hmem, List.mem_cons, Ne.symm hk]

theorem lookup_of_mem_nodupKeys (k : String) (g : List ProcessedEvent) :
    ∀ m : List (String × List ProcessedEvent), ((m.map Prod.fst).Nodup) →
      (k, g) ∈ m → m.lookup k = some g := by
  intro m
  induction m with
  | nil => intro _ h; cases h
  | cons kv rest ih =>
    intro hnd hm
    obtain ⟨k', g'⟩ := kv
    simp only [List.map_cons, List.nodup_cons] at hnd
    rcases List.mem_cons.mp hm with heq | hmem
    · rw [Prod.mk.injEq] at heq
      obtain ⟨h1, h2⟩ := heq
      subst h1
      subst h2
      simp [List.lookup]
    · have hk : k ≠ k' := by
        intro hkk
        subst hkk
        exact hnd.1 (List.mem_map_of_mem Prod.fst hmem)
      simp [List.lookup, beq_eq_false_iff_ne.mpr hk, ih hnd.2 hmem]

theorem buildFileMap_spec (events : List ProcessedEvent) :
    ((buildFileMap events).map Prod.fst).Nodup ∧
    ∀ k, (buildFileMap events).lookup k =
      if events.filter (fun e => fileKey e = k) = [] then none
      else some (events.filter (fun e => fileKey e = k)) := by
  induction events using List.reverseRecOn with
  | nil => exact ⟨List.nodup_nil, fun k => by simp [buildFileMap]⟩
  | append_singleton l e ih =>
    obtain ⟨hnd, hlook⟩ := ih
    have hstep : buildFileMap (l ++ [e]) = groupInsert (buildFileMap l) (fileKey e) e := by
      simp [buildFileMap, List.foldl_append]
    constructor
    · rw [hstep, groupInsert_keys]
      by_cases hmem : fileKey e ∈ (buildFileMap l).map Prod.fst
      · simp [hmem, hnd]
      · simp [hmem, hnd, List.nodup_append]
    · intro k
      by_cases hk : k = fileKey e
      · rw [hk, hstep, groupInsert_lookup_self, hlook (fileKey e)]
        have hfe : List.filter (fun e' => decide (fileKey e' = fileKey e)) [e] = [e] := by simp
        by_cases hnil : l.filter (fun e' => fileKey e' = fileKey e) = []
        · simp [List.filter_append, hnil, hfe]
        · simp [List.filter_append, hnil, hfe]
      · rw [hstep, groupInsert_lookup_ne _ _ _ hk, hlook k]
        have hfe : List.filter (fun e' => decide (fileKey e' = k)) [e] = [] := by
          simp [Ne.symm hk]
        simp [List.filter_append, hfe]

/-- C3.  For every aggregated file: `totalTime` is the sum of the four
phase buckets; each bucket sums exactly the durations of its categories
(`checkTime` merging `check` and `checkTypes`; any other category, e.g.
`program`, contributes to no bucket); each group holds exactly the events
resolving to its path, so events without a file path appear in no group;
and the list is ordered descending by `totalTime`. -/
theorem aggregateByFile_spec (events : List ProcessedEvent) :
    (aggregateByFile events).Pairwise (fun a b => b.totalTime ≤ a.totalTime) ∧
    ∀ f ∈ aggregateByFile events,
      f.totalTime = f.parseTime + f.bindTime + f.checkTime + f.emitTime ∧
      f.parseTime = ((f.events.filter (fun e => e.category = TraceCategory.parse)).map ProcessedEvent.duration).sum ∧
      f.bindTime = ((f.events.filter (fun e => e.category = TraceCategory.bind)).map ProcessedEvent.duration).sum ∧
      f.checkTime = ((f.events.filter (fun e => e.category = TraceCategory.check ∨ e.category = TraceCategory.checkTypes)).map ProcessedEvent.duration).sum ∧
      f.emitTime = ((f.events.filter (fun e => e.category = TraceCategory.emit)).map ProcessedEvent.duration).sum ∧
      f.events = events.filter (fun e => fileKey e = f.filePath) ∧
      ∀ e ∈ f.events, e.filePath = some f.filePath := by
  constructor
  · exact sortDesc_sorted _ _
  · intro f hf
    obtain ⟨hnd, hlook⟩ := buildFileMap_spec events
    simp only [aggregateByFile] at hf
    have hf' := (sortDesc_perm _ _).mem_iff.mp hf
    obtain ⟨kv, hkv, hfkv⟩ := List.mem_map.mp hf'
    obtain ⟨hkvmem, hkvne⟩ := List.mem_filter.mp hkv
    have hkvne' : kv.1 ≠ "__no_file__" := by simpa using hkvne
    have hlk : (buildFileMap events).lookup kv.1 = some kv.2 := by
      obtain ⟨k, g⟩ := kv
      exact lookup_of_mem_nodupKeys k g _ hnd hkvmem
    rw [hlook kv.1] at hlk
    have hgrp : kv.2 = events.filter (fun e => fileKey e = kv.1) := by
      by_cases hnil : events.filter (fun e => fileKey e = kv.1) = []
      · rw [if_pos hnil] at hlk; cases hlk
      · rw [if_neg hnil] at hlk
        exact (Option.some_inj.mp hlk).symm
    obtain ⟨hsum1, hsum2, hsum3, hsum4⟩ := foldl_bumpPhase kv.2 {}
    subst hfkv
    refine ⟨?_, ?_, ?_, ?_, ?_, ?_, ?_⟩
    · rfl
    · simpa using hsum1
    · simpa using hsum2
    · simpa using hsum3
    · simpa using hsum4
    · exact hgrp
    · intro e he
      have hkey : fileKey e = kv.1 := by
        rw [hgrp] at he
        simpa using (List.mem_filter.mp he).2
      unfold fileKey at hkey
      cases hfp : e.filePath with
      | none =>
        rw [hfp] at hkey
        simp only [] at hkey
        exact absurd hkey.symm hkvne'
      | some s =>
        rw [hfp] at hkey
        simp only [] at hkey
        by_cases hs : s = ""
        · rw [if_pos hs] at hkey
          exact absurd hkey.symm hkvne'
        · rw [if_neg hs] at hkey
          rw [hkey]

/-- A sample check-phase event attributed to `a.ts`, for the witnesses. -/
def sampleCheckEvent : ProcessedEvent :=
  { id := "event-0", name := "checkExpression", category := TraceCategory.check, startTime := 0, duration := 5, filePath := some "a.ts", args := none }

/-- Aggregating the single sample event produces one file record. -/
theorem aggregateByFile_singleton_eval :
    aggregateByFile [sampleCheckEvent] =
      [{ filePath := "a.ts", shortPath := shortenPath "a.ts", events := [sampleCheckEvent], totalTime := 5, parseTime := 0, bindTime := 0, checkTime := 5, emitTime := 0 }] := by
  simp only [aggregateByFile, buildFileMap, List.foldl_cons, List.foldl_nil, groupInsert,
    fileKey, sampleCheckEvent, calculateFileTiming, bumpPhase, sortDesc, insertDesc]
  norm_num
  simp

/-- The file record of the evaluation above. -/
def sampleFileRecord : FileEvents :=
  { filePath := "a.ts", shortPath := shortenPath "a.ts", events := [sampleCheckEvent], totalTime := 5, parseTime := 0, bindTime := 0, checkTime := 5, emitTime := 0 }

theorem aggregateByFile_spec_witness :
    sampleFileRecord.totalTime = sampleFileRecord.parseTime + sampleFileRecord.bindTime + sampleFileRecord.checkTime + sampleFileRecord.emitTime ∧
    sampleFileRecord.parseTime = ((sampleFileRecord.events.filter (fun e => e.category = TraceCategory.parse)).map ProcessedEvent.duration).sum ∧
    sampleFileRecord.bindTime = ((sampleFileRecord.events.filter (fun e => e.category = TraceCategory.bind)).map ProcessedEvent.duration).sum ∧
    sampleFileRecord.checkTime = ((sampleFileRecord.events.filter (fun e => e.category = TraceCategory.check ∨ e.category = TraceCategory.checkTypes)).map ProcessedEvent.duration).sum ∧
    sampleFileRecord.emitTime = ((sampleFileRecord.events.filter (fun e => e.category = TraceCategory.emit)).map ProcessedEvent.duration).sum ∧
    sampleFileRecord.events = [sampleCheckEvent].filter (fun e => fileKey e = sampleFileRecord.filePath) ∧
    ∀ e ∈ sampleFileRecord.events, e.filePath = some sampleFileRecord.filePath :=
  (aggregateByFile_spec [sampleCheckEvent]).2 sampleFileRecord
    (by rw [aggregateByFile_singleton_eval]; exact List.mem_singleton_self _)

/-! ## Location aggregation (`extractLocationsFromFile` source) -/

/-- `CodeLocation` (`end` is a reserved word in Lean; the field is named
`endPos`). -/
structure CodeLocation where
  pos : ℚ
  endPos : ℚ
  kind : ℚ
  kindName : String
  duration : ℚ
  eventName : String
  typeIds : Option (List ℚ) := none
  codeSnippet : Option String := none
  lineNumber : Option ℚ := none
  columnNumber : Option ℚ := none
deriving DecidableEq

/-- `FileLocationDetails`. -/
structure FileLocationDetails where
  filePath : String
  shortPath : String
  totalTime : ℚ
  locations : List CodeLocation
deriving DecidableEq

/-- `SYNTAX_KIND_NAMES`, the fixed lookup table. -/
def syntaxKindNames : List (ℚ × String) := [
  (79, "Identifier"),
  (80, "PrivateIdentifier"),
  (106, "ThisKeyword"),
  (108, "SuperKeyword"),
  (110, "TrueKeyword"),
  (95, "FalseKeyword"),
  (104, "NullKeyword"),
  (9, "NumericLiteral"),
  (10, "BigIntLiteral"),
  (11, "StringLiteral"),
  (14, "RegularExpressionLiteral"),
  (15, "NoSubstitutionTemplateLiteral"),
  (228, "TemplateExpression"),
  (209, "ArrayLiteralExpression"),
  (210, "ObjectLiteralExpression"),
  (211, "PropertyAccessExpression"),
  (212, "ElementAccessExpression"),
  (213, "CallExpression"),
  (214, "NewExpression"),
  (216, "TypeAssertionExpression"),
  (217, "ParenthesizedExpression"),
  (218, "FunctionExpression"),
  (219, "ArrowFunction"),
  (220, "DeleteExpression"),
  (221, "TypeOfExpression"),
  (222, "VoidExpression"),
  (223, "AwaitExpression"),
  (224, "PrefixUnaryExpression"),
  (225, "PostfixUnaryExpression"),
  (226, "BinaryExpression"),
  (227, "ConditionalExpression"),
  (229, "YieldExpression"),
  (230, "SpreadElement"),
  (231, "ClassExpression"),
  (233, "OmittedExpression"),
  (234, "ExpressionWithTypeArguments"),
  (235, "AsExpression"),
  (236, "NonNullExpression"),
  (237, "MetaProperty"),
  (238, "TaggedTemplateExpression"),
  (239, "SatisfiesExpression"),
  (262, "FunctionDeclaration"),
  (263, "ClassDeclaration"),
  (264, "InterfaceDeclaration"),
  (265, "TypeAliasDeclaration"),
  (266, "EnumDeclaration"),
  (267, "ModuleDeclaration"),
  (243, "Block"),
  (244, "EmptyStatement"),
  (245, "VariableStatement"),
  (246, "ExpressionStatement"),
  (247, "IfStatement"),
  (248, "DoStatement"),
  (249, "WhileStatement"),
  (250, "ForStatement"),
  (251, "ForInStatement"),
  (252, "ForOfStatement"),
  (253, "ContinueStatement"),
  (254, "BreakStatement"),
  (255, "ReturnStatement"),
  (256, "WithStatement"),
  (257, "SwitchStatement"),
  (258, "LabeledStatement"),
  (259, "ThrowStatement"),
  (260, "TryStatement"),
  (182, "TypeReference"),
  (183, "FunctionType"),
  (184, "ConstructorType"),
  (185, "TypeQuery"),
  (186, "TypeLiteral"),
  (187, "ArrayType"),
  (188, "TupleType"),
  (189, "OptionalType"),
  (190, "RestType"),
  (191, "UnionType"),
  (192, "IntersectionType"),
  (193, "ConditionalType"),
  (194, "InferType"),
  (195, "ParenthesizedType"),
  (196, "ThisType"),
  (197, "TypeOperator"),
  (198, "IndexedAccessType"),
  (199, "MappedType"),
  (200, "LiteralType"),
  (201, "NamedTupleMember"),
  (202, "TemplateLiteralType"),
  (283, "JsxElement"),
  (284, "JsxSelfClosingElement"),
  (285, "JsxOpeningElement"),
  (286, "JsxClosingElement"),
  (287, "JsxFragment"),
  (290, "JsxAttribute"),
  (291, "JsxSpreadAttribute"),
  (292, "JsxExpression"),
  (303, "SourceFile"),
  (308, "JSDocComment")]

/-- `getSyntaxKindName`: table lookup with a `SyntaxKind(<code>)` fallback. -/
def getSyntaxKindName (kind : ℚ) : String :=
  (syntaxKindNames.lookup kind).getD ("SyntaxKind(" ++ toString kind ++ ")")

/-- A numeric argument read (`event.args.x as number | undefined`). -/
def numArg (bag : ArgsBag) (k : String) : Option ℚ :=
  match bag.lookup k with
  | some (.num q) => some q
  | _ => none

/-- A string argument read (`event.args.x as string | undefined`). -/
def strArg (bag : ArgsBag) (k : String) : Option String :=
  match bag.lookup k with
  | some (.str s) => some s
  | _ => none

/-- JS truthiness of an optional string (`undefined` and `""` are falsy). -/
def optStrTruthy : Option String → Bool
  | some s => !(s == "")
  | none => false

/-- The aggregation key: the event is skipped unless its bag is present
and carries numeric `pos` and `end`; the map key `` `${pos}:${end}` `` is
represented by the pair itself (the string rendering is injective). -/
def locKey? (e : ProcessedEvent) : Option (ℚ × ℚ) :=
  match e.args with
  | none => none
  | some bag =>
      match numArg bag "pos", numArg bag "end" with
      | some p, some q => some (p, q)
      | _, _ => none

/-- The `sourceId`/`targetId` type references collected from one event. -/
def eventTypeIds (bag : ArgsBag) : List ℚ :=
  (match numArg bag "sourceId" with | some q => [q] | none => []) ++
  (match numArg bag "targetId" with | some q => [q] | none => [])

/-- Merging one event into an existing location of the same key: add the
duration, append type ids when present, and adopt snippet metadata only
when none is set yet. -/
def mergeIntoLocation (e : ProcessedEvent) (bag : ArgsBag) (loc : CodeLocation) : CodeLocation :=
  let ids := eventTypeIds bag
  let withDur := { loc with duration := loc.duration + e.duration }
  let withIds :=
    if ids.length > 0 then { withDur with typeIds := some ((withDur.typeIds.getD []) ++ ids) }
    else withDur
  if !(optStrTruthy withIds.codeSnippet) && optStrTruthy (strArg bag "codeSnippet") then
    { withIds with codeSnippet := strArg bag "codeSnippet", lineNumber := numArg bag "lineNumber", columnNumber := numArg bag "columnNumber" }
  else withIds

/-- The fresh location created for a first occurrence of a key. -/
def freshLocation (e : ProcessedEvent) (bag : ArgsBag) (p q : ℚ) : CodeLocation :=
  let ids := eventTypeIds bag
  { pos := p
    endPos := q
    kind := (numArg bag "kind").getD 0
    kindName := getSyntaxKindName ((numArg bag "kind").getD 0)
    duration := e.duration
    eventName := e.name
    typeIds := if ids.length > 0 then some ids else none
    codeSnippet := strArg bag "codeSnippet"
    lineNumber := numArg bag "lineNumber"
    columnNumber := numArg bag "columnNumber" }

/-- Get-or-create update of the insertion-ordered location map. -/
def locUpsert (key : ℚ × ℚ) (upd : CodeLocation → CodeLocation) (fresh : CodeLocation) :
    List ((ℚ × ℚ) × CodeLocation) → List ((ℚ × ℚ) × CodeLocation)
  | [] => [(key, fresh)]
  | (k, loc) :: rest =>
      if k = key then (k, upd loc) :: rest
      else (k, loc) :: locUpsert key upd fresh rest

/-- One iteration of `extractLocationsFromFile`'s loop. -/
def locStep (m : List ((ℚ × ℚ) × CodeLocation)) (e : ProcessedEvent) :
    List ((ℚ × ℚ) × CodeLocation) :=
  match e.args with
  | none => m
  | some bag =>
      match numArg bag "pos", numArg bag "end" with
      | some p, some q => locUpsert (p, q) (mergeIntoLocation e bag) (freshLocation e bag p q) m
      | _, _ => m

/-- `extractLocationsFromFile`: aggregate by `(pos, end)`, drop locations
at or below the 0.1 ms noise threshold, sort descending by duration. -/
def extractLocationsFromFile (events : List ProcessedEvent) (filePath shortPath : String) :
    FileLocationDetails :=
  let locationMap := events.foldl locStep []
  let locations := sortDesc (fun loc => loc.duration)
    ((locationMap.map Prod.snd).filter (fun loc => loc.duration > 1/10))
  let totalTime := locations.foldl (fun sum loc => sum + loc.duration) 0
  { filePath := filePath, shortPath := shortPath, totalTime := totalTime, locations := locations }

/-! ## Location-aggregation proofs (C7) -/

theorem mergeIntoLocation_duration (e : ProcessedEvent) (bag : ArgsBag) (loc : CodeLocation) :
    (mergeIntoLocation e bag loc).duration = loc.duration + e.duration := by
  simp only [mergeIntoLocation]
  split <;> split <;> rfl

theorem mergeIntoLocation_pos (e : ProcessedEvent) (bag : ArgsBag) (loc : CodeLocation) :
    (mergeIntoLocation e bag loc).pos = loc.pos ∧
    (mergeIntoLocation e bag loc).endPos = loc.endPos := by
  simp only [mergeIntoLocation]
  split <;> split <;> exact ⟨rfl, rfl⟩

theorem locUpsert_lookup_self (key : ℚ × ℚ) (upd : CodeLocation → CodeLocation)
    (fresh : CodeLocation) :
    ∀ m, (locUpsert key upd fresh m).lookup key =
      some (match m.lookup key with | none => fresh | some loc => upd loc) := by
  intro m
  induction m with
  | nil => simp [locUpsert]
  | cons kv rest ih =>
    obtain ⟨k, loc⟩ := kv
    by_cases hk : k = key
    · subst hk
      simp [locUpsert, List.lookup]
    · have hne : (key == k) = false := beq_eq_false_iff_ne.mpr (Ne.symm hk)
      simp [locUpsert, hk, List.lookup, hne, ih]

theorem locUpsert_lookup_ne (key k' : ℚ × ℚ) (upd : CodeLocation → CodeLocation)
    (fresh : CodeLocation) (h : k' ≠ key) :
    ∀ m, (locUpsert key upd fresh m).lookup k' = m.lookup k' := by
  intro m
  induction m with
  | nil => simp [locUpsert, List.lookup, beq_eq_false_iff_ne.mpr h]
  | cons kv rest ih =>
    obtain ⟨k, loc⟩ := kv
    by_cases hk : k = key
    · subst hk
      simp [locUpsert, List.lookup, beq_eq_false_iff_ne.mpr h]
    · by_cases hk2 : k' = k
      · subst hk2
        simp [locUpsert, hk, List.lookup]
      · simp [locUpsert, hk, List.lookup, beq_eq_false_iff_ne.mpr hk2, ih]

theorem locUpsert_keys (key : ℚ × ℚ) (upd : CodeLocation → CodeLocation)
    (fresh : CodeLocation) :
    ∀ m : List ((ℚ × ℚ) × CodeLocation),
      (locUpsert key upd fresh m).map Prod.fst =
        if key ∈ m.map Prod.fst then m.map Prod.fst else m.map Prod.fst ++ [key] := by
  intro m
  induction m with
  | nil => simp [locUpsert]
  | cons kv rest ih =>
    obtain ⟨k, loc⟩ := kv
    by_cases hk : k = key
    · subst hk
      simp [locUpsert]
    · simp only [locUpsert, hk, ite_false, if_neg hk, List.map_cons, ih]
      by_cases hmem : key ∈ rest.map Prod.fst
      · simp [hmem, List.mem_cons]
      · have hne : ¬ key = k := fun h => hk h.symm
        simp [hmem, List.mem_cons, hne]

theorem locUpsert_mem (key : ℚ × ℚ) (upd : CodeLocation → CodeLocation)
    (fresh : CodeLocation) :
    ∀ m kv, kv ∈ locUpsert key upd fresh m →
      kv = (key, fresh) ∨ (∃ loc, (key, loc) ∈ m ∧ kv = (key, upd loc)) ∨ kv ∈ m := by
  intro m
  induction m with
  | nil =>
    intro kv h
    simp [locUpsert] at h
    exact Or.inl h
  | cons kv' rest ih =>
    obtain ⟨k, loc⟩ := kv'
    intro kv h
    by_cases hk : k = key
    · subst hk
      simp only [locUpsert, if_pos rfl] at h
      rcases List.mem_cons.mp h with rfl | hmem
      · exact Or.inr (Or.inl ⟨loc, List.mem_cons_self _ _, rfl⟩)
      · exact Or.inr (Or.inr (List.mem_cons_of_mem _ hmem))
    · simp only [locUpsert, if_neg hk] at h
      rcases List.mem_cons.mp h with rfl | hmem
      · exact Or.inr (Or.inr (List.mem_cons_self _ _))
      · rcases ih kv hmem with h1 | ⟨loc', hl, h2⟩ | h3
        · exact Or.inl h1
        · exact Or.inr (Or.inl ⟨loc', List.mem_cons_of_mem _ hl, h2⟩)
        · exact Or.inr (Or.inr (List.mem_cons_of_mem _ h3))

theorem locStep_none (e : ProcessedEvent) (hk : locKey? e = none) :
    ∀ m, locStep m e = m := by
  intro m
  cases hargs : e.args with
  | none => simp [locStep, hargs]
  | some bag =>
    simp only [locKey?, hargs] at hk
    cases hp : numArg bag "pos" with
    | none => simp [locStep, hargs, hp]
    | some pv =>
      cases hq : numArg bag "end" with
      | none => simp [locStep, hargs, hp, hq]
      | some qv =>
        rw [hp, hq] at hk
        cases hk

theorem locStep_some (e : ProcessedEvent) (p q : ℚ) (hk : locKey? e = some (p, q)) :
    ∃ bag, e.args = some bag ∧ numArg bag "pos" = some p ∧ numArg bag "end" = some q ∧
      ∀ m, locStep m e = locUpsert (p, q) (mergeIntoLocation e bag) (freshLocation e bag p q) m := by
  cases hargs : e.args with
  | none => simp only [locKey?, hargs] at hk; cases hk
  | some bag =>
    simp only [locKey?, hargs] at hk
    cases hp : numArg bag "pos" with
    | none => rw [hp] at hk; simp at hk
    | some pv =>
      cases hq : numArg bag "end" with
      | none => rw [hp, hq] at hk; simp at hk
      | some qv =>
        rw [hp, hq] at hk
        rw [Option.some_inj, Prod.mk.injEq] at hk
        obtain ⟨hpv, hqv⟩ := hk
        subst hpv
        subst hqv
        refine ⟨bag, rfl, hp, hq, ?_⟩
        intro m
        simp [locStep, hargs, hp, hq]

theorem buildLocMap_spec (events : List ProcessedEvent) :
    ((events.foldl locStep []).map Prod.fst).Nodup ∧
    (∀ kv ∈ events.foldl locStep [], kv.2.pos = kv.1.1 ∧ kv.2.endPos = kv.1.2) ∧
    (∀ pq : ℚ × ℚ,
      match (events.foldl locStep []).lookup pq with
      | none => events.filter (fun e => locKey? e = some pq) = []
      | some loc =>
          events.filter (fun e => locKey? e = some pq) ≠ [] ∧
          loc.duration = ((events.filter (fun e => locKey? e = some pq)).map ProcessedEvent.duration).sum) := by
  induction events using List.reverseRecOn with
  | nil => exact ⟨by simp, by simp, fun pq => by simp⟩
  | append_singleton l e ih =>
    obtain ⟨hnd, hentry, hlook⟩ := ih
    have hstep : (l ++ [e]).foldl locStep [] = locStep (l.foldl locStep []) e := by
      simp [List.foldl_append]
    cases hk : locKey? e with
    | none =>
      rw [hstep, locStep_none e hk]
      refine ⟨hnd, hentry, ?_⟩
      intro pq
      have hfil : (l ++ [e]).filter (fun e' => locKey? e' = some pq) =
          l.filter (fun e' => locKey? e' = some pq) := by
        rw [List.filter_append]
        have : List.filter (fun e' => decide (locKey? e' = some pq)) [e] = [] := by
          simp [hk]
        rw [this, List.append_nil]
      rw [hfil]
      exact hlook pq
    | some key =>
      obtain ⟨p0, q0⟩ := key
      obtain ⟨bag, hargs, hp, hq, hstepEq⟩ := locStep_some e p0 q0 hk
      rw [hstep, hstepEq]
      refine ⟨?_, ?_, ?_⟩
      · rw [locUpsert_keys]
        by_cases hmem : (p0, q0) ∈ (l.foldl locStep []).map Prod.fst
        · simp [hmem, hnd]
        · simp [hmem, hnd, List.nodup_append]
      · intro kv hkv
        rcases locUpsert_mem _ _ _ _ kv hkv with rfl | ⟨loc, hl, rfl⟩ | hm
        · exact ⟨rfl, rfl⟩
        · obtain ⟨h1, h2⟩ := mergeIntoLocation_pos e bag loc
          obtain ⟨h3, h4⟩ := hentry (⟨(p0, q0), loc⟩) hl
          exact ⟨by rw [h1]; exact h3, by rw [h2]; exact h4⟩
        · exact hentry kv hm
      · intro pq
        by_cases hpq : pq = (p0, q0)
        · subst hpq
          rw [locUpsert_lookup_self]
          have hfe : List.filter (fun e' => decide (locKey? e' = some (p0, q0))) [e] = [e] := by
            simp [hk]
          have hfil : (l ++ [e]).filter (fun e' => locKey? e' = some (p0, q0)) =
              l.filter (fun e' => locKey? e' = some (p0, q0)) ++ [e] := by
            rw [List.filter_append, hfe]
          rw [hfil]
          have := hlook (p0, q0)
          cases hlk : (l.foldl locStep []).lookup (p0, q0) with
          | none =>
            rw [hlk] at this
            simp only []
            constructor
            · simp
            · rw [this]
              simp [freshLocation]
          | some loc =>
            rw [hlk] at this
            obtain ⟨hne, hdur⟩ := this
            simp only []
            constructor
            · simp
            · rw [mergeIntoLocation_duration, hdur]
              rw [List.map_append, List.sum_append]
              simp
        · rw [locUpsert_lookup_ne _ _ _ _ hpq]
          have hne0 : ¬ (p0, q0) = pq := fun h => hpq h.symm
          have hfe : List.filter (fun e' => decide (locKey? e' = some pq)) [e] = [] := by
            simp [hk, hne0]
          have hfil : (l ++ [e]).filter (fun e' => locKey? e' = some pq) =
              l.filter (fun e' => locKey? e' = some pq) := by
            rw [List.filter_append, hfe, List.append_nil]
          rw [hfil]
          exact hlook pq

theorem lookup_eq_none_of_not_mem {β : Type} (k : ℚ × ℚ) :
    ∀ m : List ((ℚ × ℚ) × β), k ∉ m.map Prod.fst → m.lookup k = none := by
  intro m
  induction m with
  | nil => intro _; rfl
  | cons kv rest ih =>
    intro hmem
    obtain ⟨k', v⟩ := kv
    simp only [List.map_cons, List.mem_cons] at hmem
    push_neg at hmem
    simp [List.lookup, beq_eq_false_iff_ne.mpr hmem.1, ih hmem.2]

theorem mapSnd_filter_key (p q : ℚ) :
    ∀ m : List ((ℚ × ℚ) × CodeLocation),
      ((m.map Prod.fst).Nodup) →
      (∀ kv ∈ m, kv.2.pos = kv.1.1 ∧ kv.2.endPos = kv.1.2) →
      (m.map Prod.snd).filter (fun loc => loc.pos = p ∧ loc.endPos = q) =
        (match m.lookup (p, q) with
         | none => []
         | some loc => [loc]) := by
  intro m
  induction m with
  | nil => intro _ _; rfl
  | cons kv rest ih =>
    intro hnd hent
    obtain ⟨k, loc⟩ := kv
    obtain ⟨hpos, hend⟩ := hent (k, loc) (List.mem_cons_self _ _)
    simp only [] at hpos hend
    simp only [List.map_cons, List.nodup_cons] at hnd
    have hrest := ih hnd.2 (fun kv h => hent kv (List.mem_cons_of_mem _ h))
    by_cases hk : k = (p, q)
    · subst hk
      have hcond : decide (loc.pos = p ∧ loc.endPos = q) = true := by
        simp only [] at hpos hend
        simp [hpos, hend]
      have hnone : rest.lookup (p, q) = none := lookup_eq_none_of_not_mem _ rest hnd.1
      rw [hnone] at hrest
      simp only [List.map_cons, List.filter_cons, hcond, List.lookup, if_true]
      rw [hrest]
      simp [List.lookup]
    · have hcond : decide (loc.pos = p ∧ loc.endPos = q) = false := by
        apply decide_eq_false
        rintro ⟨h1, h2⟩
        apply hk
        have e1 : k.1 = p := hpos.symm.trans h1
        have e2 : k.2 = q := hend.symm.trans h2
        obtain ⟨k1, k2⟩ := k
        simp only [] at e1 e2
        rw [e1, e2]
      have hbne : ((p, q) == k) = false := beq_eq_false_iff_ne.mpr (fun h => hk h.symm)
      simp only [List.map_cons, List.filter_cons, hcond, List.lookup, hbne,
        Bool.false_eq_true, if_false]
      rw [hrest]

/-- C7.  `extractLocationsFromFile` merges all events sharing an identical
`(pos, end)` pair into one `CodeLocation` whose duration is the sum of
those events' durations, excludes every aggregated location whose total
duration is at most 0.1 ms, and returns the remaining locations sorted
descending by duration.  The per-key conjunct says precisely: the output
contains one location with that key and summed duration when the sum
exceeds 0.1 ms, and none otherwise. -/
theorem extractLocationsFromFile_spec (events : List ProcessedEvent) (filePath shortPath : String) :
    (extractLocationsFromFile events filePath shortPath).locations.Pairwise (fun a b => b.duration ≤ a.duration) ∧
    ∀ p q : ℚ,
      (((extractLocationsFromFile events filePath shortPath).locations.filter
          (fun loc => loc.pos = p ∧ loc.endPos = q)).map CodeLocation.duration) =
        (if ((events.filter (fun e => locKey? e = some (p, q))).map ProcessedEvent.duration).sum > 1/10
         then [((events.filter (fun e => locKey? e = some (p, q))).map ProcessedEvent.duration).sum]
         else []) := by
  constructor
  · exact sortDesc_sorted _ _
  · intro p q
    obtain ⟨hnd, hentry, hlook⟩ := buildLocMap_spec events
    have hperm : List.Perm
        ((extractLocationsFromFile events filePath shortPath).locations.filter
          (fun loc => loc.pos = p ∧ loc.endPos = q))
        ((((events.foldl locStep []).map Prod.snd).filter (fun loc => loc.duration > 1/10)).filter
          (fun loc => loc.pos = p ∧ loc.endPos = q)) :=
      List.Perm.filter _ (sortDesc_perm _ _)
    rw [List.filter_comm] at hperm
    rw [mapSnd_filter_key p q _ hnd hentry] at hperm
    have := hlook (p, q)
    cases hlk : (events.foldl locStep []).lookup (p, q) with
    | none =>
      rw [hlk] at this hperm
      simp only [List.filter_nil] at hperm
      rw [hperm.eq_nil, this]
      simp
    | some loc =>
      rw [hlk] at this hperm
      obtain ⟨hne, hdur⟩ := this
      rw [List.filter_singleton] at hperm
      by_cases hthr : loc.duration > 1/10
      · rw [if_pos (by rw [← hdur]; exact hthr)]
        have hcond : decide (loc.duration > 1/10) = true := decide_eq_true hthr
        rw [hcond, cond_true] at hperm
        rw [hperm.eq_singleton]
        simp [hdur]
      · rw [if_neg (by rw [← hdur]; exact hthr)]
        have hcond : decide (loc.duration > 1/10) = false := decide_eq_false hthr
        rw [hcond, cond_false] at hperm
        rw [hperm.eq_nil]
        simp

/-! ## Decoder progress reporting (`parser/trace-parser.ts`, C9) -/

/-- The `percentage` values reported by the read stream's data handler
(`parseTraceFile`): each chunk advances `bytesRead`; the handler reports
`Math.floor((bytesRead / totalBytes) * 100)` only when it exceeds
`lastReportedPercentage` (byte counts are naturals, so the floor is
natural division). -/
def dataReports (totalBytes : ℕ) : List ℕ → ℕ → ℕ → List ℕ
  | [], _, _ => []
  | c :: rest, bytesRead, lastReported =>
    let newBytesRead := bytesRead + c
    let pct := newBytesRead * 100 / totalBytes
    if lastReported < pct then pct :: dataReports totalBytes rest newBytesRead pct
    else dataReports totalBytes rest newBytesRead lastReported

/-- The full sequence of percentages passed to the progress callback over
one run: the data-handler reports followed by the end handler's
unconditional report of 100. -/
def reportedPercentages (totalBytes : ℕ) (chunks : List ℕ) : List ℕ :=
  dataReports totalBytes chunks 0 0 ++ [100]

/-- C9 counterexample: when the chunks reach exactly 100% the data
handler reports 100 and the end handler reports 100 again, so 100 is
passed twice, refuting "the value 100 is reported exactly once" (and "at
most once per integer percentage-point value") on the normal complete
read. -/
theorem reportedPercentages_100_twice_cex :
    reportedPercentages 10 [10] = [100, 100] ∧
    (reportedPercentages 10 [10]).count 100 = 2 := by
  constructor <;> decide

theorem dataReports_invariant (totalBytes : ℕ) (hpos : 0 < totalBytes) :
    ∀ (chunks : List ℕ) (bytesRead lastReported : ℕ),
      bytesRead + chunks.sum ≤ totalBytes →
      lastReported ≤ bytesRead * 100 / totalBytes →
      (dataReports totalBytes chunks bytesRead lastReported).Pairwise (· < ·) ∧
      (∀ v ∈ dataReports totalBytes chunks bytesRead lastReported,
        lastReported < v ∧ v ≤ 100) := by
  intro chunks
  induction chunks with
  | nil => intro bytesRead lastReported _ _; exact ⟨List.Pairwise.nil, by simp [dataReports]⟩
  | cons c rest ih =>
    intro bytesRead lastReported hsum hlast
    have hsum' : (bytesRead + c) + rest.sum ≤ totalBytes := by
      simp only [List.sum_cons] at hsum
      omega
    have hble : bytesRead + c ≤ totalBytes := by omega
    have hpct100 : (bytesRead + c) * 100 / totalBytes ≤ 100 := by
      calc (bytesRead + c) * 100 / totalBytes ≤ totalBytes * 100 / totalBytes :=
            Nat.div_le_div_right (Nat.mul_le_mul_right 100 hble)
        _ = 100 := by rw [Nat.mul_comm]; exact Nat.mul_div_cancel 100 hpos
    have hmono : bytesRead * 100 / totalBytes ≤ (bytesRead + c) * 100 / totalBytes :=
      Nat.div_le_div_right (Nat.mul_le_mul_right 100 (Nat.le_add_right bytesRead c))
    simp only [dataReports]
    by_cases hlt : lastReported < (bytesRead + c) * 100 / totalBytes
    · simp only [hlt, if_true]
      obtain ⟨hpw, hbnd⟩ := ih (bytesRead + c) ((bytesRead + c) * 100 / totalBytes) hsum' (le_refl _)
      refine ⟨List.pairwise_cons.mpr ⟨fun v hv => (hbnd v hv).1, hpw⟩, ?_⟩
      intro v hv
      rcases List.mem_cons.mp hv with rfl | hv'
      · exact ⟨hlt, hpct100⟩
      · exact ⟨lt_trans hlt (hbnd v hv').1, (hbnd v hv').2⟩
    · simp only [hlt, if_false]
      exact ih (bytesRead + c) lastReported hsum' (le_trans hlast hmono)

/-- C9 (amended).  Over any run (chunk sizes summing to at most the
stated total, positive total), the percentage sequence passed to the
progress callback is monotonically non-decreasing, each value below 100
is passed at most once, and 100 is reported at end-of-stream — but up to
twice in total, because the end handler repeats it when a data chunk
already reached 100% (see the counterexample). -/
theorem reportedPercentages_monotone (totalBytes : ℕ) (chunks : List ℕ)
    (hpos : 0 < totalBytes) (hsum : chunks.sum ≤ totalBytes) :
    (reportedPercentages totalBytes chunks).Pairwise (· ≤ ·) ∧
    (∀ v, v ≠ 100 → (reportedPercentages totalBytes chunks).count v ≤ 1) ∧
    (reportedPercentages totalBytes chunks).count 100 ≤ 2 ∧
    (reportedPercentages totalBytes chunks).getLast? = some 100 := by
  obtain ⟨hpw, hbnd⟩ := dataReports_invariant totalBytes hpos chunks 0 0 (by omega) (Nat.zero_le _)
  have hnd : (dataReports totalBytes chunks 0 0).Nodup :=
    hpw.imp (fun h => ne_of_lt h)
  refine ⟨?_, ?_, ?_, ?_⟩
  · refine List.pairwise_append.mpr ⟨hpw.imp le_of_lt, List.pairwise_singleton _ _, ?_⟩
    intro a ha b hb
    rw [List.mem_singleton] at hb
    subst hb
    exact (hbnd a ha).2
  · intro v hv
    rw [reportedPercentages, List.count_append]
    have h1 : (dataReports totalBytes chunks 0 0).count v ≤ 1 :=
      List.nodup_iff_count_le_one.mp hnd v
    have h2 : List.count v [100] = 0 := by
      rw [List.count_singleton]
      simp [Ne.symm hv]
    omega
  · rw [reportedPercentages, List.count_append]
    have h1 : (dataReports totalBytes chunks 0 0).count 100 ≤ 1 :=
      List.nodup_iff_count_le_one.mp hnd 100
    have h2 : List.count 100 [100] = 1 := by simp
    omega
  · rw [reportedPercentages]
    exact List.getLast?_concat _

theorem reportedPercentages_monotone_witness :
    (reportedPercentages 10 [3, 3, 4]).Pairwise (· ≤ ·) ∧
    (∀ v, v ≠ 100 → (reportedPercentages 10 [3, 3, 4]).count v ≤ 1) ∧
    (reportedPercentages 10 [3, 3, 4]).count 100 ≤ 2 ∧
    (reportedPercentages 10 [3, 3, 4]).getLast? = some 100 :=
  reportedPercentages_monotone 10 [3, 3, 4] (by decide) (by decide)

/-! ## Percentile computation (`shared/algorithms` source, C6) -/

theorem filter_length_lt_of_mem_not (l : List ℚ) (pred : ℚ → Bool) (x : ℚ)
    (hx : x ∈ l) (hnx : pred x = false) : (l.filter pred).length < l.length :=
  List.length_filter_lt_length_iff_exists.mpr ⟨x, hx, by simp [hnx]⟩

theorem getD_mem_of_lt (l : List ℚ) (i : ℕ) (h : i < l.length) : l.getD i 0 ∈ l := by
  rw [List.getD_eq_getElem l 0 h]
  exact List.getElem_mem h

/-- `quickselect`: k-th smallest element by partitioning around the middle
element.  The JS recursion never terminates on an empty array (callers
guarantee a nonempty array and in-range rank), modelled as `none`; the
singleton fast path returns `arr[0]` ignoring `k`, as in the source. -/
def quickselect (arr : List ℚ) (k : ℕ) : Option ℚ :=
  if arr.length = 1 then some (arr.getD 0 0)
  else if h0 : arr = [] then none
  else
    let pivot := arr.getD (arr.length / 2) 0
    let lows := arr.filter (fun x => x < pivot)
    let highs := arr.filter (fun x => pivot < x)
    let pivots := arr.filter (fun x => ¬ x < pivot ∧ ¬ pivot < x)
    if k < lows.length then quickselect lows k
    else if k < lows.length + pivots.length then some pivot
    else quickselect highs (k - lows.length - pivots.length)
termination_by arr.length
decreasing_by
  · refine filter_length_lt_of_mem_not arr _ (arr.getD (arr.length / 2) 0)
      (getD_mem_of_lt arr _ ?_) (by simp)
    have : arr.length ≠ 0 := fun h => h0 (List.length_eq_zero.mp h)
    omega
  · refine filter_length_lt_of_mem_not arr _ (arr.getD (arr.length / 2) 0)
      (getD_mem_of_lt arr _ ?_) (by simp)
    have : arr.length ≠ 0 := fun h => h0 (List.length_eq_zero.mp h)
    omega

theorem partition_perm (p : ℚ) (l : List ℚ) :
    List.Perm l (l.filter (fun x => x < p) ++ l.filter (fun x => ¬ x < p ∧ ¬ p < x) ++ l.filter (fun x => p < x)) := by
  induction l with
  | nil => simp
  | cons a t ih =>
    simp only [List.filter_cons]
    rcases lt_trichotomy a p with h | h | h
    · have c1 : decide (a < p) = true := decide_eq_true h
      have c2 : decide (¬ a < p ∧ ¬ p < a) = false := by simp [h]
      have c3 : decide (p < a) = false := by simp [le_of_lt h]
      simp only [c1, c2, c3, if_true, if_false, Bool.false_eq_true, List.cons_append]
      exact ih.cons a
    · subst h
      have c1 : decide (a < a) = false := by simp
      have c2 : decide (¬ a < a ∧ ¬ a < a) = true := by simp
      have c3 : decide (a < a) = false := by simp
      simp only [c1, c2, c3, if_true, if_false, Bool.false_eq_true]
      have ih' : List.Perm (a :: t)
          (a :: (t.filter (fun x => x < a) ++ (t.filter (fun x => ¬ x < a ∧ ¬ a < x) ++ t.filter (fun x => a < x)))) := by
        refine List.Perm.cons a ?_
        calc List.Perm t (t.filter (fun x => x < a) ++ t.filter (fun x => ¬ x < a ∧ ¬ a < x) ++ t.filter (fun x => a < x)) := ih
          _ = t.filter (fun x => x < a) ++ (t.filter (fun x => ¬ x < a ∧ ¬ a < x) ++ t.filter (fun x => a < x)) := by
              rw [List.append_assoc]
      have := @List.perm_middle _ a (t.filter (fun x => x < a))
        (t.filter (fun x => ¬ x < a ∧ ¬ a < x) ++ t.filter (fun x => a < x))
      rw [List.append_assoc, List.cons_append]
      exact ih'.trans this.symm
    · have c1 : decide (a < p) = false := by simp [le_of_lt h]
      have c2 : decide (¬ a < p ∧ ¬ p < a) = false := by simp [h, le_of_lt h]
      have c3 : decide (p < a) = true := decide_eq_true h
      simp only [c1, c2, c3, if_true, if_false, Bool.false_eq_true]
      have ih' : List.Perm (a :: t)
          (a :: ((t.filter (fun x => x < p) ++ t.filter (fun x => ¬ x < p ∧ ¬ p < x)) ++ t.filter (fun x => p < x))) :=
        List.Perm.cons a ih
      refine ih'.trans ?_
      have := @List.perm_middle _ a
        (t.filter (fun x => x < p) ++ t.filter (fun x => ¬ x < p ∧ ¬ p < x))
        (t.filter (fun x => p < x))
      exact this.symm

theorem mem_pivots_eq (p x : ℚ) (l : List ℚ)
    (hx : x ∈ l.filter (fun y => ¬ y < p ∧ ¬ p < y)) : x = p := by
  have := (List.mem_filter.mp hx).2
  rw [decide_eq_true_iff] at this
  exact le_antisymm (not_lt.mp this.2) (not_lt.mp this.1)

theorem sortAsc_id_sorted (l : List ℚ) : List.Sorted (· ≤ ·) (sortAsc id l) := by
  have := sortAsc_sorted id l
  simpa [List.Sorted] using this

theorem sortAsc_partition (p : ℚ) (arr : List ℚ) :
    sortAsc id arr =
      sortAsc id (arr.filter (fun x => x < p)) ++ arr.filter (fun x => ¬ x < p ∧ ¬ p < x) ++ sortAsc id (arr.filter (fun x => p < x)) := by
  apply List.eq_of_perm_of_sorted (r := (· ≤ ·))
  · refine (sortAsc_perm id arr).trans ((partition_perm p arr).trans ?_)
    exact List.Perm.append (List.Perm.append (sortAsc_perm id _).symm (List.Perm.refl _)) (sortAsc_perm id _).symm
  · exact sortAsc_id_sorted arr
  · have hlow : ∀ x ∈ sortAsc id (arr.filter (fun x => x < p)), x < p := by
      intro x hx
      have := (sortAsc_perm id _).mem_iff.mp hx
      exact of_decide_eq_true (List.mem_filter.mp this).2
    have hhigh : ∀ x ∈ sortAsc id (arr.filter (fun x => p < x)), p < x := by
      intro x hx
      have := (sortAsc_perm id _).mem_iff.mp hx
      exact of_decide_eq_true (List.mem_filter.mp this).2
    rw [List.Sorted, List.append_assoc]
    refine List.pairwise_append.mpr ⟨sortAsc_id_sorted _, ?_, ?_⟩
    · refine List.pairwise_append.mpr ⟨?_, sortAsc_id_sorted _, ?_⟩
      · refine List.pairwise_iff_forall_sublist.mpr ?_
        intro a b hab
        have ha := hab.subset (List.mem_cons_self a [b])
        have hb := hab.subset (List.mem_cons_of_mem a (List.mem_cons_self b []))
        rw [mem_pivots_eq p a arr ha, mem_pivots_eq p b arr hb]
      · intro a ha b hb
        rw [mem_pivots_eq p a arr ha]
        exact le_of_lt (hhigh b hb)
    · intro a ha b hb
      rcases List.mem_append.mp hb with hb' | hb'
      · rw [mem_pivots_eq p b arr hb']
        exact le_of_lt (hlow a ha)
      · exact le_of_lt (lt_trans (hlow a ha) (hhigh b hb'))

theorem quickselect_correct :
    ∀ (n : ℕ) (arr : List ℚ) (k : ℕ), arr.length ≤ n → k < arr.length →
      quickselect arr k = some ((sortAsc id arr).getD k 0) := by
  intro n
  induction n with
  | zero => intro arr k hn hk; omega
  | succ n ih =>
    intro arr k hn hk
    rw [quickselect]
    by_cases h1 : arr.length = 1
    · obtain ⟨a, rfl⟩ := List.length_eq_one.mp h1
      have hk0 : k = 0 := by simp at hk; omega
      subst hk0
      simp [sortAsc, insertAsc]
    · have h0 : ¬ arr = [] := by
        intro h
        rw [h] at hk
        simp at hk
      simp only [h1, if_false, h0, dite_false]
      set pivot := arr.getD (arr.length / 2) 0 with hpiv
      set lows := arr.filter (fun x => x < pivot) with hlows
      set pivots := arr.filter (fun x => ¬ x < pivot ∧ ¬ pivot < x) with hpivots
      set highs := arr.filter (fun x => pivot < x) with hhighs
      have hpmem : pivot ∈ arr := by
        refine getD_mem_of_lt arr _ ?_
        have : arr.length ≠ 0 := fun h => h0 (List.length_eq_zero.mp h)
        omega
      have hlowlt : lows.length < arr.length :=
        filter_length_lt_of_mem_not arr _ pivot hpmem (by simp)
      have hhighlt : highs.length < arr.length :=
        filter_length_lt_of_mem_not arr _ pivot hpmem (by simp)
      have hsplit := sortAsc_partition pivot arr
      rw [← hlows, ← hpivots, ← hhighs] at hsplit
      have hlenlows : (sortAsc id lows).length = lows.length :=
        (sortAsc_perm id lows).length_eq
      have hlenhighs : (sortAsc id highs).length = highs.length :=
        (sortAsc_perm id highs).length_eq
      have hlensum : lows.length + pivots.length + highs.length = arr.length := by
        have := (partition_perm pivot arr).length_eq
        simp only [List.length_append] at this
        rw [← hlows, ← hpivots, ← hhighs] at this
        omega
      by_cases hklow : k < lows.length
      · rw [if_pos hklow]
        rw [ih lows k (by omega) hklow, hsplit]
        rw [List.getD_append _ _ 0 k (by rw [List.length_append]; omega)]
        rw [List.getD_append _ _ 0 k (by omega)]
      · rw [if_neg hklow]
        by_cases hkmid : k < lows.length + pivots.length
        · rw [if_pos hkmid]
          rw [hsplit]
          rw [List.getD_append _ _ 0 k (by rw [List.length_append]; omega)]
          rw [List.getD_append_right _ _ 0 k (by omega)]
          have hidx : k - (sortAsc id lows).length < pivots.length := by omega
          have hmem := getD_mem_of_lt pivots _ hidx
          exact congrArg some (mem_pivots_eq pivot _ arr hmem).symm
        · rw [if_neg hkmid]
          have hkhigh : k - lows.length - pivots.length < highs.length := by omega
          rw [ih highs _ (by omega) hkhigh, hsplit]
          rw [List.getD_append_right _ _ 0 k (by rw [List.length_append]; omega)]
          have hidx : k - (sortAsc id lows ++ pivots).length = k - lows.length - pivots.length := by
            rw [List.length_append]
            omega
          rw [hidx]

/-- `calculatePercentilesFromNumbers` (default `percentiles` argument:
`[50, 90, 95, 99]`).  The result `Map` is modelled as the association
list of `(percentile, value)` pairs; an out-of-range read on the sort
path would store JS `undefined`, hence the `Option ℚ` values. -/
def calculatePercentilesFromNumbers (values : List ℚ) (percentiles : List ℚ) :
    List (ℚ × Option ℚ) :=
  if values = [] then percentiles.map (fun p => (p, some 0))
  else if values.length < 100 ∨ 5 < percentiles.length then
    let sorted := sortAsc id values
    percentiles.map (fun p =>
      (p, sorted.get? (max (0 : ℤ) (⌈p / 100 * ((values.length : ℚ))⌉ - 1)).toNat))
  else
    percentiles.map (fun p =>
      (p, quickselect values (max (0 : ℤ) (⌈p / 100 * ((values.length : ℚ))⌉ - 1)).toNat))

theorem lookup_map_pair {β : Type} (f : ℚ → β) (p : ℚ) :
    ∀ ps : List ℚ, p ∈ ps → (ps.map (fun x => (x, f x))).lookup p = some (f p) := by
  intro ps
  induction ps with
  | nil => intro h; cases h
  | cons q rest ih =>
    intro hp
    by_cases hq : p = q
    · subst hq
      simp [List.lookup]
    · have hrest : p ∈ rest := by
        rcases List.mem_cons.mp hp with h | h
        · exact absurd h hq
        · exact h
      simp [List.lookup, beq_eq_false_iff_ne.mpr hq, ih hrest]

theorem rank_lt_length (p : ℚ) (n : ℕ) (hn : 0 < n) (h100 : p ≤ 100) :
    (max (0 : ℤ) (⌈p / 100 * ((n : ℚ))⌉ - 1)).toNat < n := by
  have hceil : ⌈p / 100 * ((n : ℚ))⌉ ≤ (n : ℤ) := by
    rw [Int.ceil_le]
    push_cast
    have hdiv : p / 100 ≤ 1 := (div_le_one (by norm_num)).mpr h100
    nlinarith [Nat.cast_nonneg (α := ℚ) n]
  omega

/-- C6.  For percentiles `0 ≤ p ≤ 100`, `calculatePercentilesFromNumbers`
returns the element at 0-indexed rank `ceil(p/100*n) - 1` (clamped to at
least 0) of the ascending sort — the same formula whether the quickselect
path (`n ≥ 100` and at most 5 requested percentiles) or the sort path is
taken — and 0 for every percentile when the input is empty. -/
theorem calculatePercentilesFromNumbers_spec (values percentiles : List ℚ) (p : ℚ)
    (hp : p ∈ percentiles) (h0 : 0 ≤ p) (h100 : p ≤ 100) :
    (calculatePercentilesFromNumbers values percentiles).lookup p =
      some (if values = [] then some 0
            else some ((sortAsc id values).getD (max (0 : ℤ) (⌈p / 100 * ((values.length : ℚ))⌉ - 1)).toNat 0)) := by
  unfold calculatePercentilesFromNumbers
  by_cases hev : values = []
  · rw [if_pos hev, if_pos hev]
    exact lookup_map_pair _ p percentiles hp
  · have hn : 0 < values.length := List.length_pos.mpr hev
    have hrank := rank_lt_length p values.length hn h100
    have hlen : (max (0 : ℤ) (⌈p / 100 * ((values.length : ℚ))⌉ - 1)).toNat < (sortAsc id values).length := by
      rw [(sortAsc_perm id values).length_eq]
      exact hrank
    have hget : (sortAsc id values).get? (max (0 : ℤ) (⌈p / 100 * ((values.length : ℚ))⌉ - 1)).toNat =
        some ((sortAsc id values).getD (max (0 : ℤ) (⌈p / 100 * ((values.length : ℚ))⌉ - 1)).toNat 0) := by
      rw [List.get?_eq_getElem?, List.getElem?_eq_getElem hlen, List.getD_eq_getElem _ 0 hlen]
    rw [if_neg hev, if_neg hev]
    by_cases hbr : values.length < 100 ∨ 5 < percentiles.length
    · rw [if_pos hbr]
      rw [lookup_map_pair _ p percentiles hp, hget]
    · rw [if_neg hbr]
      rw [lookup_map_pair _ p percentiles hp]
      rw [quickselect_correct values.length values _ (le_refl _) hrank]

theorem calculatePercentilesFromNumbers_spec_witness :
    (calculatePercentilesFromNumbers [3, 1, 2] [50]).lookup 50 =
      some (if ([3, 1, 2] : List ℚ) = [] then some 0
            else some ((sortAsc id [3, 1, 2]).getD (max (0 : ℤ) (⌈(50 : ℚ) / 100 * (((([3, 1, 2] : List ℚ)).length : ℚ))⌉ - 1)).toNat 0)) :=
  calculatePercentilesFromNumbers_spec [3, 1, 2] [50] 50 (by simp) (by norm_num) (by norm_num)

end TsPerf

namespace TsPerf

/-- The loop of `getTopN` for the `items.length > n` case, carrying the
ascending size-`n` working set.  When the working set is empty but full
(`n = 0`), the source reads `result[0]` — `undefined` — and calls
`getValue` on it, which is outside `getValue`'s domain (a `TypeError` for
every property-accessing `getValue`); that call is modelled as failure. -/
def getTopNAux (n : ℕ) (getValue : α → ℚ) : List α → List α → Option (List α)
  | result, [] => some result.reverse
  | result, item :: rest =>
    if result.length < n then
      getTopNAux n getValue (sortAsc getValue (result ++ [item])) rest
    else
      match result with
      | [] => none
      | r0 :: tl =>
          if getValue r0 < getValue item then
            getTopNAux n getValue (sortAsc getValue (item :: tl)) rest
          else
            getTopNAux n getValue (r0 :: tl) rest

/-- `getTopN`: full descending sort when everything fits, otherwise the
size-`n` working-set loop. -/
def getTopN (items : List α) (n : ℕ) (getValue : α → ℚ) : Option (List α) :=
  if items.length ≤ n then some (sortDesc getValue items)
  else getTopNAux n getValue [] items

/-- C5 counterexample: for `K = 0` and a non-empty list the loop
dereferences `result[0]` of the empty working set and applies `getValue`
to `undefined`, so no 0-element list is returned. -/
theorem getTopN_zero_nonempty_cex : getTopN [(1 : ℚ)] 0 id = none := rfl

theorem getTopNAux_length (n : ℕ) (f : α → ℚ) (hn : 1 ≤ n) :
    ∀ (pending result : List α), result.length ≤ n →
      ∃ l, getTopNAux n f result pending = some l ∧
        l.length = min n (result.length + pending.length) := by
  intro pending
  induction pending with
  | nil =>
    intro result hle
    refine ⟨result.reverse, rfl, ?_⟩
    simp only [List.length_reverse, List.length_nil]
    omega
  | cons item rest ih =>
    intro result hle
    by_cases hlt : result.length < n
    · obtain ⟨l, hl, hlen⟩ := ih (sortAsc f (result ++ [item]))
        (by rw [(sortAsc_perm f _).length_eq, List.length_append]
            simp only [List.length_singleton]
            omega)
      refine ⟨l, ?_, ?_⟩
      · simp only [getTopNAux, hlt, if_true]
        exact hl
      · rw [hlen, (sortAsc_perm f _).length_eq, List.length_append]
        simp only [List.length_cons, List.length_singleton, List.length_nil]
        omega
    · have hlenn : result.length = n := by omega
      cases result with
      | nil => simp at hlenn; omega
      | cons r0 tl =>
        by_cases hcmp : f r0 < f item
        · obtain ⟨l, hl, hlen⟩ := ih (sortAsc f (item :: tl))
            (by rw [(sortAsc_perm f _).length_eq]; simp only [List.length_cons]; simp only [List.length_cons] at hlenn; omega)
          refine ⟨l, ?_, ?_⟩
          · simp only [getTopNAux, hlt, if_false, hcmp, if_true]
            exact hl
          · rw [hlen, (sortAsc_perm f _).length_eq]
            simp only [List.length_cons] at hlenn ⊢
            omega
        · obtain ⟨l, hl, hlen⟩ := ih (r0 :: tl) hle
          refine ⟨l, ?_, ?_⟩
          · simp only [getTopNAux, hlt, if_false, hcmp]
            exact hl
          · rw [hlen]
            simp only [List.length_cons] at hlenn ⊢
            omega

end TsPerf

namespace TsPerf

theorem eq_of_perm_of_strict_asc (f : α → ℚ) (l₁ l₂ : List α)
    (hperm : List.Perm l₁ l₂)
    (h1 : l₁.Pairwise (fun a b => f a < f b)) (h2 : l₂.Pairwise (fun a b => f a < f b)) :
    l₁ = l₂ := by
  haveI : IsAntisymm α (fun a b => f a < f b) := ⟨fun _ _ hab hba => absurd hba (lt_asymm hab)⟩
  exact List.eq_of_perm_of_sorted hperm h1 h2

theorem eq_of_perm_of_strict_desc (f : α → ℚ) (l₁ l₂ : List α)
    (hperm : List.Perm l₁ l₂)
    (h1 : l₁.Pairwise (fun a b => f b < f a)) (h2 : l₂.Pairwise (fun a b => f b < f a)) :
    l₁ = l₂ := by
  haveI : IsAntisymm α (fun a b => f b < f a) := ⟨fun _ _ hab hba => absurd hba (lt_asymm hab)⟩
  exact List.eq_of_perm_of_sorted hperm h1 h2

theorem pairwise_ne_of_nodup_map (f : α → ℚ) (l : List α) (h : (l.map f).Nodup) :
    l.Pairwise (fun a b => f a ≠ f b) :=
  List.pairwise_map.mp h

theorem sortAsc_strict (f : α → ℚ) (l : List α) (h : (l.map f).Nodup) :
    (sortAsc f l).Pairwise (fun a b => f a < f b) := by
  have hle := sortAsc_sorted f l
  have hnd : ((sortAsc f l).map f).Nodup := (((sortAsc_perm f l).map f).nodup_iff).mpr h
  exact ((hle.and (pairwise_ne_of_nodup_map f _ hnd)).imp (fun h => lt_of_le_of_ne h.1 h.2))

theorem desc_strict_of_nodup (f : α → ℚ) (l : List α)
    (hle : l.Pairwise (fun a b => f b ≤ f a)) (h : (l.map f).Nodup) :
    l.Pairwise (fun a b => f b < f a) :=
  (hle.and (pairwise_ne_of_nodup_map f l h)).imp (fun h => lt_of_le_of_ne h.1 (Ne.symm h.2))

theorem sortDesc_strict (f : α → ℚ) (l : List α) (h : (l.map f).Nodup) :
    (sortDesc f l).Pairwise (fun a b => f b < f a) :=
  desc_strict_of_nodup f _ (sortDesc_sorted f l)
    ((((sortDesc_perm f l).map f).nodup_iff).mpr h)

theorem insertDesc_eq_takeWhile (f : α → ℚ) (x : α) :
    ∀ l : List α, insertDesc f x l =
      l.takeWhile (fun a => f x < f a) ++ x :: l.dropWhile (fun a => f x < f a) := by
  intro l
  induction l with
  | nil => rfl
  | cons a as ih =>
    by_cases h : f x < f a
    · simp only [insertDesc, h, if_true, List.takeWhile_cons, List.dropWhile_cons,
        decide_eq_true h, ih]
      rfl
    · simp only [insertDesc, h, if_false, List.takeWhile_cons, List.dropWhile_cons,
        decide_eq_false h]
      rfl

theorem sortDesc_append_singleton (f : α → ℚ) (l : List α) (x : α)
    (h : ((l ++ [x]).map f).Nodup) :
    sortDesc f (l ++ [x]) = insertDesc f x (sortDesc f l) := by
  have hperm : List.Perm (sortDesc f (l ++ [x])) (insertDesc f x (sortDesc f l)) := by
    refine (sortDesc_perm f (l ++ [x])).trans ?_
    refine (List.perm_append_singleton x l).trans ?_
    exact (((sortDesc_perm f l).symm).cons x).trans (insertDesc_perm f x (sortDesc f l)).symm
  have h1 := sortDesc_strict f (l ++ [x]) h
  have hperm2 : List.Perm (insertDesc f x (sortDesc f l)) (l ++ [x]) :=
    hperm.symm.trans (sortDesc_perm f (l ++ [x]))
  have h2 : (insertDesc f x (sortDesc f l)).Pairwise (fun a b => f b < f a) := by
    refine desc_strict_of_nodup f _ (insertDesc_sorted f x _ (sortDesc_sorted f l)) ?_
    exact ((hperm2.map f).nodup_iff).mpr h
  exact eq_of_perm_of_strict_desc f _ _ hperm h1 h2

theorem takeWhile_length_ge (pred : α → Bool) :
    ∀ (l : List α) (n : ℕ), n ≤ l.length → (∀ a ∈ l.take n, pred a = true) →
      n ≤ (l.takeWhile pred).length := by
  intro l
  induction l with
  | nil => intro n h _; simpa using h
  | cons a as ih =>
    intro n hn hall
    cases n with
    | zero => omega
    | succ m =>
      have hpa : pred a = true := hall a (by simp [List.take_succ_cons])
      rw [List.takeWhile_cons, hpa]
      simp only [if_true, List.length_cons]
      have : m ≤ (as.takeWhile pred).length := by
        refine ih m (by simpa using hn) ?_
        intro b hb
        exact hall b (by simp [List.take_succ_cons, hb])
      omega

end TsPerf

namespace TsPerf

theorem topk_step_fill (n : ℕ) (f : α → ℚ) (processed : List α) (item : α)
    (hlen : processed.length < n) (hnd : ((processed ++ [item]).map f).Nodup) :
    sortAsc f (((sortDesc f processed).take n).reverse ++ [item]) =
      ((sortDesc f (processed ++ [item])).take n).reverse := by
  have hndp : (processed.map f).Nodup := by
    refine List.Nodup.sublist ?_ hnd
    exact (List.sublist_append_left processed [item]).map f
  have hlenS : (sortDesc f processed).length = processed.length :=
    (sortDesc_perm f processed).length_eq
  have htakeS : (sortDesc f processed).take n = sortDesc f processed :=
    List.take_of_length_le (by omega)
  have hlenT : (sortDesc f (processed ++ [item])).length = processed.length + 1 := by
    rw [(sortDesc_perm f _).length_eq, List.length_append, List.length_singleton]
  have htakeT : (sortDesc f (processed ++ [item])).take n = sortDesc f (processed ++ [item]) :=
    List.take_of_length_le (by omega)
  rw [htakeS, htakeT]
  apply eq_of_perm_of_strict_asc f
  · refine (sortAsc_perm f _).trans ?_
    refine (List.Perm.append ((List.reverse_perm _).trans (sortDesc_perm f processed)) (List.Perm.refl [item])).trans ?_
    exact ((sortDesc_perm f (processed ++ [item])).symm).trans (List.reverse_perm _).symm
  · apply sortAsc_strict
    refine (List.Perm.nodup_iff ?_).mpr hnd
    exact (List.Perm.append ((List.reverse_perm _).trans (sortDesc_perm f processed)) (List.Perm.refl [item])).map f
  · rw [List.pairwise_reverse]
    exact sortDesc_strict f _ hnd

end TsPerf

namespace TsPerf

theorem topk_min_of_reverse_cons (n : ℕ) (f : α → ℚ) (processed : List α) (r0 : α)
    (tl : List α) (hndp : (processed.map f).Nodup)
    (hR : ((sortDesc f processed).take n).reverse = r0 :: tl) :
    ∀ y ∈ (sortDesc f processed).take n, f r0 ≤ f y := by
  have hstrict : ((sortDesc f processed).take n).Pairwise (fun a b => f b < f a) :=
    (sortDesc_strict f processed hndp).sublist (List.take_sublist _ _)
  have hrev : (((sortDesc f processed).take n).reverse).Pairwise (fun a b => f a < f b) :=
    List.pairwise_reverse.mpr hstrict
  rw [hR] at hrev
  intro y hy
  rw [← List.mem_reverse, hR] at hy
  rcases List.mem_cons.mp hy with rfl | hy'
  · exact le_refl _
  · exact le_of_lt ((List.pairwise_cons.mp hrev).1 y hy')

theorem topk_step_skip (n : ℕ) (f : α → ℚ) (processed : List α) (item r0 : α) (tl : List α)
    (hn : 1 ≤ n) (hlen : n ≤ processed.length)
    (hndp : (processed.map f).Nodup)
    (hR : ((sortDesc f processed).take n).reverse = r0 :: tl)
    (hnd : ((processed ++ [item]).map f).Nodup)
    (hlt : f item < f r0) :
    (sortDesc f (processed ++ [item])).take n = (sortDesc f processed).take n := by
  have hlenS : (sortDesc f processed).length = processed.length :=
    (sortDesc_perm f processed).length_eq
  have hmin := topk_min_of_reverse_cons n f processed r0 tl hndp hR
  have hpred : ∀ y ∈ (sortDesc f processed).take n,
      ((fun a => decide (f item < f a)) y) = true :=
    fun y hy => decide_eq_true (lt_of_lt_of_le hlt (hmin y hy))
  have hm : n ≤ ((sortDesc f processed).takeWhile (fun a => f item < f a)).length :=
    takeWhile_length_ge _ _ n (by omega) hpred
  obtain ⟨t, ht⟩ := List.takeWhile_prefix (l := sortDesc f processed) (fun a => f item < f a)
  have hz : n - ((sortDesc f processed).takeWhile (fun a => f item < f a)).length = 0 := by
    omega
  rw [sortDesc_append_singleton f processed item hnd, insertDesc_eq_takeWhile,
    List.take_append_eq_append_take, hz]
  simp only [List.take_zero, List.append_nil]
  conv_rhs => rw [← ht]
  rw [List.take_append_eq_append_take, hz]
  simp only [List.take_zero, List.append_nil]

end TsPerf

namespace TsPerf

theorem topk_step_replace (n : ℕ) (f : α → ℚ) (processed : List α) (item r0 : α) (tl : List α)
    (hn : 1 ≤ n) (hlen : n ≤ processed.length)
    (hndp : (processed.map f).Nodup)
    (hR : ((sortDesc f processed).take n).reverse = r0 :: tl)
    (hnd : ((processed ++ [item]).map f).Nodup)
    (hlt : f r0 < f item) :
    sortAsc f (item :: tl) = ((sortDesc f (processed ++ [item])).take n).reverse := by
  have hlenS : (sortDesc f processed).length = processed.length :=
    (sortDesc_perm f processed).length_eq
  have hr0mem : r0 ∈ (sortDesc f processed).take n := by
    rw [← List.mem_reverse, hR]
    exact List.mem_cons_self _ _
  obtain ⟨t, ht⟩ := List.takeWhile_prefix (l := sortDesc f processed) (fun a => f item < f a)
  have hm : ((sortDesc f processed).takeWhile (fun a => f item < f a)).length < n := by
    by_contra hcon
    push_neg at hcon
    have htk : (sortDesc f processed).take n =
        ((sortDesc f processed).takeWhile (fun a => f item < f a)).take n := by
      conv_lhs => rw [← ht]
      rw [List.take_append_eq_append_take]
      have hz : n - ((sortDesc f processed).takeWhile (fun a => f item < f a)).length = 0 := by
        omega
      rw [hz]
      simp only [List.take_zero, List.append_nil]
    have hr0tw : r0 ∈ (sortDesc f processed).takeWhile (fun a => f item < f a) := by
      rw [htk] at hr0mem
      exact List.take_subset _ _ hr0mem
    have := List.mem_takeWhile_imp hr0tw
    rw [decide_eq_true_iff] at this
    exact absurd this (lt_asymm hlt)
  have hsplit : (sortDesc f processed).takeWhile (fun a => f item < f a) ++
      (sortDesc f processed).dropWhile (fun a => f item < f a) = sortDesc f processed :=
    List.takeWhile_append_dropWhile _ _
  have htakeT : (sortDesc f (processed ++ [item])).take n =
      (sortDesc f processed).takeWhile (fun a => f item < f a) ++
        item :: ((sortDesc f processed).dropWhile (fun a => f item < f a)).take
          (n - ((sortDesc f processed).takeWhile (fun a => f item < f a)).length - 1) := by
    rw [sortDesc_append_singleton f processed item hnd, insertDesc_eq_takeWhile,
      List.take_append_eq_append_take,
      List.take_of_length_le (le_of_lt hm)]
    have hk : n - ((sortDesc f processed).takeWhile (fun a => f item < f a)).length
        = (n - ((sortDesc f processed).takeWhile (fun a => f item < f a)).length - 1) + 1 := by
      omega
    rw [hk, List.take_succ_cons]
    simp only [Nat.add_sub_cancel]
  have hlentake : ((sortDesc f processed).take n).length = n := by
    rw [List.length_take]
    omega
  have htl : tl = ((sortDesc f processed).take (n - 1)).reverse := by
    have h1 : tl = (((sortDesc f processed).take n).reverse).tail := by
      rw [hR, List.tail_cons]
    rw [h1, List.tail_reverse]
    congr 1
    rw [List.dropLast_eq_take, hlentake, List.take_take]
    congr 1
    omega
  have htake1 : (sortDesc f processed).take (n - 1) =
      (sortDesc f processed).takeWhile (fun a => f item < f a) ++
        ((sortDesc f processed).dropWhile (fun a => f item < f a)).take
          (n - 1 - ((sortDesc f processed).takeWhile (fun a => f item < f a)).length) := by
    conv_lhs => rw [← hsplit]
    rw [List.take_append_eq_append_take, List.take_of_length_le (by omega)]
  have hidx : n - ((sortDesc f processed).takeWhile (fun a => f item < f a)).length - 1 =
      n - 1 - ((sortDesc f processed).takeWhile (fun a => f item < f a)).length := by omega
  have hperm : List.Perm (item :: tl) ((sortDesc f (processed ++ [item])).take n) := by
    rw [htakeT, htl, hidx]
    refine List.Perm.trans (List.Perm.cons item (List.reverse_perm _)) ?_
    rw [htake1]
    exact List.perm_middle.symm
  apply eq_of_perm_of_strict_asc f
  · exact (sortAsc_perm f _).trans (hperm.trans (List.reverse_perm _).symm)
  · apply sortAsc_strict
    have hndT : ((sortDesc f (processed ++ [item])).map f).Nodup :=
      (((sortDesc_perm f _).map f).nodup_iff).mpr hnd
    have hndtake : (((sortDesc f (processed ++ [item])).take n).map f).Nodup :=
      List.Nodup.sublist ((List.take_sublist _ _).map f) hndT
    exact ((hperm.map f).nodup_iff).mpr hndtake
  · rw [List.pairwise_reverse]
    exact (sortDesc_strict f _ hnd).sublist (List.take_sublist _ _)

end TsPerf

namespace TsPerf

theorem getTopNAux_topk (n : ℕ) (f : α → ℚ) (hn : 1 ≤ n) :
    ∀ (pending processed : List α),
      ((processed ++ pending).map f).Nodup →
      getTopNAux n f (((sortDesc f processed).take n).reverse) pending =
        some ((sortDesc f (processed ++ pending)).take n) := by
  intro pending
  induction pending with
  | nil =>
    intro processed hnd
    simp only [getTopNAux, List.reverse_reverse, List.append_nil]
  | cons item rest ih =>
    intro processed hnd
    have hassoc : (processed ++ [item]) ++ rest = processed ++ item :: rest := by
      rw [List.append_assoc, List.singleton_append]
    have hnd' : (((processed ++ [item]) ++ rest).map f).Nodup := by
      rw [hassoc]; exact hnd
    have hndpi : ((processed ++ [item]).map f).Nodup :=
      List.Nodup.sublist ((List.sublist_append_left _ _).map f) hnd'
    have hndp : (processed.map f).Nodup :=
      List.Nodup.sublist ((List.sublist_append_left _ _).map f) hndpi
    have hlenS : (sortDesc f processed).length = processed.length :=
      (sortDesc_perm f processed).length_eq
    simp only [getTopNAux]
    by_cases hfill : processed.length < n
    · have hlenR : (((sortDesc f processed).take n).reverse).length = processed.length := by
        rw [List.length_reverse, List.length_take]
        omega
      rw [if_pos (by rw [hlenR]; exact hfill)]
      rw [topk_step_fill n f processed item hfill hndpi]
      rw [ih (processed ++ [item]) hnd', hassoc]
    · have hfull : n ≤ processed.length := by omega
      have hlenR : (((sortDesc f processed).take n).reverse).length = n := by
        rw [List.length_reverse, List.length_take]
        omega
      cases hcase : ((sortDesc f processed).take n).reverse with
      | nil =>
        rw [hcase] at hlenR
        simp only [List.length_nil] at hlenR
        omega
      | cons r0 tl =>
        rw [hcase] at hlenR
        simp only [List.length_cons] at hlenR
        rw [if_neg (by simp only [List.length_cons]; omega)]
        dsimp only
        by_cases hlt : f r0 < f item
        · rw [if_pos hlt]
          rw [topk_step_replace n f processed item r0 tl hn hfull hndp hcase hndpi hlt]
          rw [ih (processed ++ [item]) hnd', hassoc]
        · rw [if_neg hlt]
          have hr0mem : r0 ∈ processed := by
            have h1 : r0 ∈ (sortDesc f processed).take n := by
              rw [← List.mem_reverse, hcase]
              exact List.mem_cons_self _ _
            exact (sortDesc_perm f processed).mem_iff.mp (List.take_subset _ _ h1)
          have hne : f item ≠ f r0 := by
            rw [List.map_append, List.map_singleton] at hndpi
            have hdisj := (List.nodup_append.mp hndpi).2.2
            intro he
            exact hdisj (List.mem_map_of_mem f hr0mem)
              (by rw [← he]; exact List.mem_singleton_self _)
          have hstrict : f item < f r0 := lt_of_le_of_ne (not_lt.mp hlt) hne
          have hskip := topk_step_skip n f processed item r0 tl hn hfull hndp hcase hndpi hstrict
          have hrec := ih (processed ++ [item]) hnd'
          rw [hskip, hcase] at hrec
          rw [hrec, hassoc]

end TsPerf

namespace TsPerf

/-- C5: for every `K ≥ 1`, `getTopN(items, K, getValue)` succeeds and returns
exactly `min(K, items.length)` items, and when the ranking values are pairwise
distinct the result is exactly the first `min(K, items.length)` elements of the
full descending sort of `items`.  The spec's claim that this also holds at
`K = 0` with a non-empty list is refuted separately: there the working set is
empty yet "full", the loop reads `result[0]` out of bounds and applies
`getValue` to `undefined`, modelled as `none`. -/
theorem getTopN_spec (items : List α) (n : ℕ) (f : α → ℚ) (hn : 1 ≤ n) :
    (∃ l, getTopN items n f = some l ∧ l.length = min n items.length) ∧
    ((items.map f).Nodup → getTopN items n f = some ((sortDesc f items).take n)) := by
  constructor
  · by_cases hle : items.length ≤ n
    · refine ⟨sortDesc f items, ?_, ?_⟩
      · simp only [getTopN, if_pos hle]
      · rw [(sortDesc_perm f items).length_eq]
        omega
    · obtain ⟨l, hl, hlen⟩ := getTopNAux_length n f hn items [] (by simp)
      refine ⟨l, ?_, ?_⟩
      · simp only [getTopN, if_neg hle]
        exact hl
      · rw [hlen]
        simp
  · intro hnd
    by_cases hle : items.length ≤ n
    · simp only [getTopN, if_pos hle]
      rw [List.take_of_length_le (by rw [(sortDesc_perm f items).length_eq]; omega)]
    · simp only [getTopN, if_neg hle]
      have h0 : ([] : List α) = ((sortDesc f ([] : List α)).take n).reverse := by
        simp [sortDesc]
      rw [h0, getTopNAux_topk n f hn items [] (by simpa using hnd)]
      simp

theorem getTopN_spec_witness :
    1 ≤ 2 ∧ (([(1 : ℚ), 3, 2].map id).Nodup ∧
      getTopN [(1 : ℚ), 3, 2] 2 id = some ((sortDesc id [(1 : ℚ), 3, 2]).take 2)) :=
  ⟨by decide, by decide, (getTopN_spec [(1 : ℚ), 3, 2] 2 id (by decide)).2 (by decide)⟩

end TsPerf
